import Mathlib

/-!
Verification of the ERobot kinematics/dynamics engine
(`roboticstoolbox/robot/ERobot.py`) against its specification.

The Python code is shallowly embedded: links live in an arena addressed by
integer index, parents are stored as indices, numeric entries are rationals,
4x4 rigid transforms are `Matrix (Fin 4) (Fin 4) ℚ`.  The external
collaborators `ELink`/`ETS` (a link's evaluated transform `A`) and the
spatial-vector algebra of `spatialmath` are not part of the sources; they are
modelled from the specification as opaque per-link data, which keeps every
theorem valid for any choice of those collaborators.
-/

set_option maxHeartbeats 1000000

abbrev Mat4 := Matrix (Fin 4) (Fin 4) ℚ

abbrev Mat3 := Matrix (Fin 3) (Fin 3) ℚ

/-- Bounds-checked entry access for a 4x4 matrix with `Nat` indices
(out-of-range reads return 0; the Python code never performs them). -/
def getU (M : Mat4) (r c : Nat) : ℚ :=
  if h : r < 4 ∧ c < 4 then M ⟨r, h.1⟩ ⟨c, h.2⟩ else 0

/-- 4x4 matrix inverse, `(det)⁻¹ • adjugate`; agrees with `np.linalg.inv`
on invertible matrices. -/
def inv4 (M : Mat4) : Mat4 := (M.det)⁻¹ • M.adjugate

/-- The 3-vector cross product exactly as the local `cross` helper inside
`hessian0` / `partial_fkine0` computes it, on `Nat`-indexed components. -/
def cross3 (a b : Nat → ℚ) : Nat → ℚ := fun r =>
  if r = 0 then a 1 * b 2 - a 2 * b 1
  else if r = 1 then a 2 * b 0 - a 0 * b 2
  else if r = 2 then a 0 * b 1 - a 1 * b 0
  else 0

/-- A link of the constructed robot (`ELink` after `BaseERobot.__init__`).
`parent` is the arena index of the parent link (`None` for the base).
`A_j`/`A_c` model the external `ELink.A` evaluation: `A_j` is the transform
of a joint link at a joint value, `A_c` the constant transform of a
non-joint link (`none` models the fast-path `A() is None` identity case).
Modelled from the spec: "Link: a tree node carrying an ETS (its transform
relative to its parent) ... Evaluates to a 4x4 rigid transform given a
scalar joint value". -/
structure ELink where
  name : String := ""
  parent : Option Nat := none
  isjoint : Bool := false
  jindex : Nat := 0
  axis : String := ""
  A_j : ℚ → Mat4 := fun _ => 1
  A_c : Option Mat4 := none

/-- A gripper sub-structure (external collaborator, modelled from the spec):
its name, its tool transform and the robot-link index its root attaches to. -/
structure Gripper where
  name : String := ""
  tool : Mat4 := 1
  parentLink : Option Nat := none

/-- The constructed robot tree (`ERobot` state after `__init__`). -/
structure ERobot where
  links : List ELink
  grippers : List Gripper := []
  eeLinks : List Nat := []
  baseLink : Nat := 0
  base : Option Mat4 := none
  tool : Option Mat4 := none

namespace ERobot

def parentAt (R : ERobot) (i : Nat) : Option Nat :=
  (R.links[i]?).bind (·.parent)

def isjointAt (R : ERobot) (i : Nat) : Bool :=
  ((R.links[i]?).map (·.isjoint)).getD false

def nameAt (R : ERobot) (i : Nat) : String :=
  ((R.links[i]?).map (·.name)).getD ""

def axisAt (R : ERobot) (i : Nat) : String :=
  ((R.links[i]?).map (·.axis)).getD ""

/-- Number of joints `n` of the robot: the count of joint links among the
robot's own links (gripper links are already removed from the list). -/
def njoints (R : ERobot) : Nat := (R.links.filter (·.isjoint)).length

/-- `link.A(qk[link.jindex], fast=True)`: joint links evaluate their ETS at
their joint value, constant links at nothing (`none` = identity skipped). -/
def linkA (R : ERobot) (i : Nat) (qk : List ℚ) : Option Mat4 :=
  (R.links[i]?).bind fun l =>
    if l.isjoint then some (l.A_j (qk.getD l.jindex 0)) else l.A_c

/-- Well-formedness of the link tree used for termination of parent walks:
each link's parent has a strictly smaller arena index (links are stored in
depth-first order, parents before children). -/
def parentWF (R : ERobot) : Bool :=
  (List.range R.links.length).all fun i =>
    match R.parentAt i with
    | some p => decide (p < i)
    | none => true

/-- Count of joint links on a list of link indices (the `n` accumulated by
`get_path`). -/
def countJ (R : ERobot) (l : List Nat) : Nat :=
  (l.filter (fun i => R.isjointAt i)).length

/-- The ancestor chain of a link: the link itself followed by its parent,
grandparent, ... up to the root (fuelled; fuel `links.length + 1` always
suffices under `parentWF`). -/
def chainAux (R : ERobot) : Nat → Nat → List Nat
  | 0, cur => [cur]
  | fuel + 1, cur =>
    cur :: (match R.parentAt cur with
      | none => []
      | some p => chainAux R fuel p)

def ancestorChain (R : ERobot) (i : Nat) : List Nat :=
  chainAux R (R.links.length + 1) i

/-- `e` is a descendant of `s` (inclusive): `s` is reached by repeatedly
following parent references upward from `e`. -/
def isDesc (R : ERobot) (s e : Nat) : Bool :=
  decide (s ∈ R.ancestorChain e)

/-- The error message raised by `get_path` when the walk falls off the root. -/
def pathErr (R : ERobot) (startIdx endIdx : Nat) : String :=
  "cannot find path from " ++ R.nameAt startIdx ++ " to " ++ R.nameAt endIdx

/-- The `while link != start` loop of `get_path`: walk upward from the
current link accumulating visited links (appended, as in the Python list)
and the running joint count, reverse the accumulator on success. -/
def gpLoop (R : ERobot) (startIdx endIdx : Nat) :
    Nat → Nat → List Nat → Nat → Except String (List Nat × Nat)
  | 0, _, _, _ => .error "recursion limit"
  | fuel + 1, cur, acc, n =>
    if cur = startIdx then .ok (acc.reverse, n)
    else
      match R.parentAt cur with
      | none => .error (R.pathErr startIdx endIdx)
      | some p =>
        gpLoop R startIdx endIdx fuel p (acc ++ [p])
          (n + (if R.isjointAt p then 1 else 0))

/-- `get_path(end, start)` after end/start resolution: the upward walk from
`end` to `start` with joint counting (the memoizing cache is omitted: it
stores exactly the value recomputed here). -/
def get_path (R : ERobot) (endIdx startIdx : Nat) :
    Except String (List Nat × Nat) :=
  gpLoop R startIdx endIdx (R.links.length + 1) endIdx [endIdx]
    (if R.isjointAt endIdx then 1 else 0)

end ERobot

namespace ERobot

/-- Under `parentWF`, a stored parent index is strictly below the child's. -/
lemma parent_lt_of_wf {R : ERobot} (hwf : R.parentWF = true) {i p : Nat}
    (h : R.parentAt i = some p) : p < i := by
  have hi : i < R.links.length := by
    by_contra hge
    have : R.links[i]? = none := by
      simp [List.getElem?_eq_none_iff]; omega
    simp [parentAt, this] at h
  have := (List.all_eq_true.mp hwf) i (by simpa using hi)
  simp only [h] at this
  exact of_decide_eq_true this

/-- The ancestor chain is fuel-independent once the fuel exceeds the index. -/
lemma chainAux_fuel {R : ERobot} (hwf : R.parentWF = true) :
    ∀ cur fuel fuel', cur < fuel → cur < fuel' →
      chainAux R fuel cur = chainAux R fuel' cur := by
  intro cur
  induction cur using Nat.strong_induction_on with
  | _ cur ih =>
    intro fuel fuel' hf hf'
    match fuel, fuel' with
    | f + 1, f' + 1 =>
      simp only [chainAux]
      cases hpar : R.parentAt cur with
      | none => rfl
      | some p =>
        have hp : p < cur := parent_lt_of_wf hwf hpar
        show cur :: chainAux R f p = cur :: chainAux R f' p
        rw [ih p hp f f' (by omega) (by omega)]

/-- Success of the `get_path` walk: if `start` is on the ancestor chain of
the current link, the loop returns the reversed accumulator extended to
`start`, with the joint count of that list. -/
lemma gpLoop_ok {R : ERobot} (hwf : R.parentWF = true) (s e : Nat) :
    ∀ fuel cur acc, cur < fuel →
      acc.getLast? = some cur →
      List.Chain' (fun a b => R.parentAt a = some b) acc →
      s ∈ chainAux R fuel cur →
      ∃ acc2, gpLoop R s e fuel cur acc (R.countJ acc) =
          .ok (acc2.reverse, R.countJ acc2) ∧
        acc2.getLast? = some s ∧ acc2.head? = acc.head? ∧
        List.Chain' (fun a b => R.parentAt a = some b) acc2 := by
  intro fuel
  induction fuel with
  | zero => intro cur acc h; omega
  | succ f ih =>
    intro cur acc hf hlast hchain hmem
    by_cases hcs : cur = s
    · subst hcs
      refine ⟨acc, ?_, ?_, rfl, hchain⟩
      · simp [gpLoop]
      · exact hlast
    · simp only [chainAux, List.mem_cons] at hmem
      rcases hmem with h | hmem
      · exact absurd h.symm hcs
      · cases hpar : R.parentAt cur with
        | none => simp [hpar] at hmem
        | some p =>
          rw [hpar] at hmem
          have hp : p < cur := parent_lt_of_wf hwf hpar
          have hcount : R.countJ (acc ++ [p]) =
              R.countJ acc + (if R.isjointAt p then 1 else 0) := by
            simp only [countJ, List.filter_append, List.length_append]
            by_cases hj : R.isjointAt p <;> simp [hj]
          have hlast2 : (acc ++ [p]).getLast? = some p := by
            simp [List.getLast?_concat]
          have hchain2 : List.Chain' (fun a b => R.parentAt a = some b)
              (acc ++ [p]) := by
            rw [List.chain'_append]
            refine ⟨hchain, List.chain'_singleton _, ?_⟩
            intro x hx y hy
            simp at hy
            subst hy
            rw [hlast] at hx
            simp at hx
            subst hx
            exact hpar
          have hne : acc ≠ [] := by
            intro h; rw [h] at hlast; simp at hlast
          obtain ⟨acc2, hres, hl2, hh2, hc2⟩ :=
            ih p (acc ++ [p]) (by omega) hlast2 hchain2 hmem
          refine ⟨acc2, ?_, hl2, ?_, hc2⟩
          · simp only [gpLoop, if_neg hcs, hpar]
            rw [← hcount]
            exact hres
          · rw [hh2, List.head?_append_of_ne_nil _ hne]

/-- Failure of the `get_path` walk: if `start` is not on the ancestor chain
of the current link, the loop raises the path-not-found error. -/
lemma gpLoop_err {R : ERobot} (hwf : R.parentWF = true) (s e : Nat) :
    ∀ fuel cur acc n, cur < fuel →
      s ∉ chainAux R fuel cur →
      gpLoop R s e fuel cur acc n = .error (R.pathErr s e) := by
  intro fuel
  induction fuel with
  | zero => intro cur acc n h; omega
  | succ f ih =>
    intro cur acc n hf hmem
    simp only [chainAux, List.mem_cons] at hmem
    push_neg at hmem
    obtain ⟨hcs, hmem⟩ := hmem
    have hne : ¬ cur = s := fun h => hcs h.symm
    cases hpar : R.parentAt cur with
    | none => simp [gpLoop, if_neg hne, hpar]
    | some p =>
      rw [hpar] at hmem
      have hp : p < cur := parent_lt_of_wf hwf hpar
      simp only [gpLoop, if_neg hne, hpar]
      exact ih p _ _ (by omega) hmem

end ERobot

namespace ERobot

lemma countJ_reverse (R : ERobot) (l : List Nat) :
    R.countJ l.reverse = R.countJ l := by
  simp [countJ, List.filter_reverse]

lemma countJ_singleton (R : ERobot) (e : Nat) :
    R.countJ [e] = (if R.isjointAt e then 1 else 0) := by
  by_cases hj : R.isjointAt e <;> simp [countJ, hj]

end ERobot

/-- C1, amended: for every robot (with parents stored before children) and
every link pair where `end` is a descendant of `start`, `get_path(end,
start)` returns the ordered link list from `start` to `end` INCLUSIVE of
both ends — its first element is `start` itself (not `start`'s immediate
child), its last element is `end`, consecutive elements are parent/child —
and the returned joint count equals the number of joint links on that list
(hence it also counts `start` when `start` is a joint link). -/
theorem c1_get_path_start_inclusive (R : ERobot) (hwf : R.parentWF = true)
    (e s : Nat) (he : e < R.links.length) (hd : R.isDesc s e = true) :
    ∃ p n, R.get_path e s = .ok (p, n) ∧ p.head? = some s ∧
      p.getLast? = some e ∧ n = R.countJ p ∧
      List.Chain' (fun a b => R.parentAt b = some a) p := by
  have hmem : s ∈ ERobot.chainAux R (R.links.length + 1) e := by
    have := of_decide_eq_true hd
    simpa [ERobot.ancestorChain] using this
  obtain ⟨acc2, hres, hl2, hh2, hc2⟩ :=
    ERobot.gpLoop_ok hwf s e (R.links.length + 1) e [e] (by omega)
      (by simp) (by simp) hmem
  refine ⟨acc2.reverse, R.countJ acc2, ?_, ?_, ?_, ?_, ?_⟩
  · rw [ERobot.get_path, ← ERobot.countJ_singleton]
    exact hres
  · rw [List.head?_reverse]
    exact hl2
  · rw [List.getLast?_reverse, hh2]
    simp
  · rw [ERobot.countJ_reverse]
  · rw [List.chain'_reverse]
    exact hc2

/-- C1 counterexample: on a two-link chain (both links joints, link 0 the
base, link 1 its child), `get_path(end = 1, start = 0)` returns the path
`[0, 1]` whose FIRST element is `start` itself, not `start`'s immediate
child, and joint count 2, not 1 — so the path is inclusive of `start`,
contradicting the claim's "exclusive of start". -/
theorem c1_counterexample :
    ERobot.get_path
        { links := [{ name := "l0", isjoint := true },
                    { name := "l1", parent := some 0, isjoint := true }] }
        1 0 = .ok ([0, 1], 2) ∧
      ([0, 1] : List Nat).head? ≠ some 1 := by
  constructor
  · rfl
  · decide

/-- C1 witness for the amended theorem: instantiation on the concrete
two-link chain. -/
theorem c1_witness :
    (ERobot.parentWF
        { links := [{ name := "l0", isjoint := true },
                    { name := "l1", parent := some 0, isjoint := true }] } = true ∧
      1 < (ERobot.links
        { links := [{ name := "l0", isjoint := true },
                    { name := "l1", parent := some 0, isjoint := true }] }).length ∧
      ERobot.isDesc
        { links := [{ name := "l0", isjoint := true },
                    { name := "l1", parent := some 0, isjoint := true }] } 0 1 = true) ∧
    (∃ p n, ERobot.get_path
        { links := [{ name := "l0", isjoint := true },
                    { name := "l1", parent := some 0, isjoint := true }] }
        1 0 = .ok (p, n) ∧ p.head? = some 0 ∧ p.getLast? = some 1 ∧
      n = ERobot.countJ
        { links := [{ name := "l0", isjoint := true },
                    { name := "l1", parent := some 0, isjoint := true }] } p ∧
      List.Chain' (fun a b => ERobot.parentAt
        { links := [{ name := "l0", isjoint := true },
                    { name := "l1", parent := some 0, isjoint := true }] } b = some a) p) :=
  ⟨⟨by decide, by decide, by decide⟩,
    c1_get_path_start_inclusive _ (by decide) 1 0 (by decide) (by decide)⟩

/-- C3: for every robot (with parents stored before children) and every
link pair such that `start` is never reached by repeatedly following
parent references upward from `end`, `get_path(end, start)` fails with the
path-not-found error rather than returning a path. -/
theorem c3_get_path_not_descendant (R : ERobot) (hwf : R.parentWF = true)
    (e s : Nat) (he : e < R.links.length) (hnd : R.isDesc s e = false) :
    R.get_path e s = .error (R.pathErr s e) := by
  have hmem : s ∉ ERobot.chainAux R (R.links.length + 1) e := by
    intro hmem
    rw [show (ERobot.chainAux R (R.links.length + 1) e) = R.ancestorChain e from rfl]
      at hmem
    simp [ERobot.isDesc, hmem] at hnd
  exact ERobot.gpLoop_err hwf s e (R.links.length + 1) e [e] _ (by omega) hmem

/-- C3 witness: on a branched robot (base 0 with children 1 and 2 on
different branches), the path from start 1 to end 2 does not exist and
`get_path` raises the path-not-found error. -/
theorem c3_witness :
    (ERobot.parentWF
        { links := [{ name := "base" }, { name := "ee1", parent := some 0 },
                    { name := "ee2", parent := some 0 }] } = true ∧
      2 < (ERobot.links
        { links := [{ name := "base" }, { name := "ee1", parent := some 0 },
                    { name := "ee2", parent := some 0 }] }).length ∧
      ERobot.isDesc
        { links := [{ name := "base" }, { name := "ee1", parent := some 0 },
                    { name := "ee2", parent := some 0 }] } 1 2 = false) ∧
    ERobot.get_path
        { links := [{ name := "base" }, { name := "ee1", parent := some 0 },
                    { name := "ee2", parent := some 0 }] } 2 1 =
      .error (ERobot.pathErr
        { links := [{ name := "base" }, { name := "ee1", parent := some 0 },
                    { name := "ee2", parent := some 0 }] } 1 2) :=
  ⟨⟨by decide, by decide, by decide⟩,
    c3_get_path_not_descendant _ (by decide) 2 1 (by decide) (by decide)⟩

namespace ERobot

/-- The `while True` walk of `fkine` from the end link's parent toward the
base: move to the parent, stop at the root, multiply the parent's transform
on the left when it is not `None`, stop after the start link. -/
def fkWalk (R : ERobot) (qk : List ℚ) (startIdx : Nat) :
    Nat → Nat → Option Mat4 → Option Mat4
  | 0, _, Tk => Tk
  | fuel + 1, cur, Tk =>
    match R.parentAt cur with
    | none => Tk
    | some p =>
      let Tk2 := match R.linkA p qk with
        | none => Tk
        | some a =>
          match Tk with
          | none => none
          | some t => some (a * t)
      if p = startIdx then Tk2 else fkWalk R qk startIdx fuel p Tk2

/-- One row of `fkine`'s trajectory loop: start from the end link's
transform combined with the tool, compose the remaining link transforms
walking toward the base, then apply the robot base transform when `start`
is the base link.  A `none` result models the Python `A @ None` failure
when the chain starts from a `None` transform with no tool. -/
def fkineRow (R : ERobot) (qk : List ℚ) (endIdx startIdx : Nat)
    (tool : Option Mat4) : Option Mat4 :=
  let Tk0 : Option Mat4 :=
    match R.linkA endIdx qk with
    | none => tool
    | some a =>
      match tool with
      | none => some a
      | some t => some (a * t)
  let Tk1 := fkWalk R qk startIdx (R.links.length + 1) endIdx Tk0
  match R.base with
  | some b => if startIdx = R.baseLink then Tk1.map (fun t => b * t) else Tk1
  | none => Tk1

/-- Tool combination at the top of `fkine`: the gripper tool `etool` and the
explicit `tool` argument compose; with neither, the robot's stored tool. -/
def fkineTool (R : ERobot) (etool toolArg : Option Mat4) : Option Mat4 :=
  match etool, toolArg with
  | some e, some t => some (e * t)
  | some e, none => some e
  | none, some t => some t
  | none, none => R.tool

/-- The trajectory loop of `fkine` over an (m x n) stack of configurations
(`for k, qk in enumerate(q)` appending one pose per row): one transform per
row, in row order. -/
def fkine (R : ERobot) (Q : List (List ℚ)) (endIdx startIdx : Nat)
    (toolArg etool : Option Mat4) : List (Option Mat4) :=
  Q.map fun qk => R.fkineRow qk endIdx startIdx (R.fkineTool etool toolArg)

end ERobot

/-- C6: for every stacked configuration matrix `Q` of shape (m, n), `fkine`
returns m transforms, and for every k the k-th returned transform equals
the single transform returned by `fkine` on the one-row stack `[Q[k]]`, in
the same order as the input rows. -/
theorem c6_fkine_trajectory (R : ERobot) (Q : List (List ℚ))
    (endIdx startIdx : Nat) (toolArg etool : Option Mat4) :
    (R.fkine Q endIdx startIdx toolArg etool).length = Q.length ∧
    ∀ (k : Nat) (qk : List ℚ), Q[k]? = some qk →
      (R.fkine Q endIdx startIdx toolArg etool)[k]? =
        (R.fkine [qk] endIdx startIdx toolArg etool)[(0 : Nat)]? := by
  constructor
  · simp [ERobot.fkine]
  · intro k qk hk
    simp [ERobot.fkine, List.getElem?_map, hk]

/-- Sample one-joint robot used to instantiate trajectory-mode theorems. -/
def sampleJointRobot : ERobot := { links := [{ name := "j0", isjoint := true }] }

/-- C6 witness: instantiation on a one-joint robot with a two-row stack. -/
theorem c6_witness :
    (([[(0 : ℚ)], [1]] : List (List ℚ))[1]? = some [1]) ∧
    (sampleJointRobot.fkine [[0], [1]] 0 0 none none)[(1 : Nat)]? =
      (sampleJointRobot.fkine [[1]] 0 0 none none)[(0 : Nat)]? :=
  ⟨by decide,
    (c6_fkine_trajectory sampleJointRobot [[0], [1]] 0 0 none none).2 1 [1]
      (by decide)⟩

namespace ERobot

/-- State of the Jacobian column loop of `jacob0`: the accumulated
transform `U`, the next column index `j`, and the 6 x n Jacobian entries. -/
structure JacState where
  U : Mat4
  j : Nat
  J : Nat → Nat → ℚ

def jzero : JacState := { U := 1, j := 0, J := fun _ _ => 0 }

/-- Write one Jacobian column: `J[:3, j] = tv; J[3:, j] = rv`. -/
def writeCol (J : Nat → Nat → ℚ) (j : Nat) (tv rv : Nat → ℚ) :
    Nat → Nat → ℚ := fun r c =>
  if c = j then (if r < 3 then tv r else if r < 6 then rv (r - 3) else J r c)
  else J r c

/-- The translational-axis column index: `tx` reads the `n` axis (column 0),
`ty` the `o` axis (column 1), `tz` the `a` axis (column 2) of `U`. -/
def axCol (R : ERobot) (li : Nat) : Nat :=
  if R.axisAt li = "tx" then 0 else if R.axisAt li = "ty" then 1 else 2

/-- One iteration of the `for link in path` loop of `jacob0`: joint links
extend `U` (and fold in the tool at the end link), then write the column
selected by the motion axis; non-joint links only extend `U`. -/
def jacobStep (R : ERobot) (q : List ℚ) (tool T : Mat4) (endIdx : Nat)
    (s : JacState) (li : Nat) : JacState :=
  if R.isjointAt li then
    let U1 := s.U * ((R.linkA li q).getD 1)
    let U2 := if li = endIdx then U1 * tool else U1
    let Tu := inv4 U2 * T
    let nv := fun r => getU U2 r 0
    let ov := fun r => getU U2 r 1
    let av := fun r => getU U2 r 2
    let x := getU Tu 0 3
    let y := getU Tu 1 3
    let z := getU Tu 2 3
    let J2 :=
      if R.axisAt li = "Rz" then
        writeCol s.J s.j (fun r => ov r * x - nv r * y) av
      else if R.axisAt li = "Ry" then
        writeCol s.J s.j (fun r => nv r * z - av r * x) ov
      else if R.axisAt li = "Rx" then
        writeCol s.J s.j (fun r => av r * y - ov r * z) nv
      else if R.axisAt li = "tx" then
        writeCol s.J s.j nv (fun _ => 0)
      else if R.axisAt li = "ty" then
        writeCol s.J s.j ov (fun _ => 0)
      else if R.axisAt li = "tz" then
        writeCol s.J s.j av (fun _ => 0)
      else s.J
    { U := U2, j := s.j + 1, J := J2 }
  else
    match R.linkA li q with
    | some a => { s with U := s.U * a }
    | none => s

/-- The whole column loop of `jacob0` over a resolved path. -/
def jacobFold (R : ERobot) (q : List ℚ) (tool T : Mat4) (endIdx : Nat)
    (path : List Nat) : JacState :=
  path.foldl (jacobStep R q tool T endIdx) jzero

/-- External analytic-rate conversion maps (`tr2rpy`/`rpy2jac`, `eul2jac`,
the exponential-coordinate map).  Modelled from the spec: "Analytical-
Jacobian variants post-multiply by a representation-specific 3x3 mapping
... applied only to the rotational block"; the maps live in the external
spatialmath collaborator. -/
structure AnalyticOps where
  rpyxyz : Mat4 → Mat3
  rpyzyx : Mat4 → Mat3
  eul : Mat4 → Mat3
  expc : Mat4 → Mat3

def inv3 (M : Mat3) : Mat3 := (M.det)⁻¹ • M.adjugate

/-- `block_diag(eye(3), inv(A)) @ J`: rows 0-2 unchanged, rows 3-5 mixed by
`inv(A)`. -/
def blockRot (Ai : Mat3) (J : Nat → Nat → ℚ) : Nat → Nat → ℚ := fun r c =>
  if r < 3 then J r c
  else if h : r < 6 then
    (Finset.univ : Finset (Fin 3)).sum
      (fun k => Ai ⟨r - 3, by omega⟩ k * J (k.val + 3) c)
  else J r c

/-- The analytical-Jacobian dispatch of `jacob0`: the four supported
representation names convert the rotational block, any other name raises
`ValueError('bad order specified')`. -/
def analyticApply (ao : AnalyticOps) (T : Mat4) (J : Nat → Nat → ℚ) :
    Option String → Except String (Nat → Nat → ℚ)
  | some "rpy-xyz" => .ok (blockRot (inv3 (ao.rpyxyz T)) J)
  | some "rpy-zyx" => .ok (blockRot (inv3 (ao.rpyzyx T)) J)
  | some "eul" => .ok (blockRot (inv3 (ao.eul T)) J)
  | some "exp" => .ok (blockRot (inv3 (ao.expc T)) J)
  | _ => .error "bad order specified"

/-- The half-Jacobian dispatch of `jacob0`: 'trans' keeps rows 0-2, 'rot'
keeps rows 3-5, any other selector raises
`ValueError('bad half specified')`. -/
def halfApply (half : Option String) (J2 : Nat → Nat → ℚ) :
    Except String (Nat × (Nat → Nat → ℚ)) :=
  match half with
  | some "trans" => .ok (3, fun r c => J2 r c)
  | some "rot" => .ok (3, fun r c => J2 (r + 3) c)
  | some _ => .error "bad half specified"
  | none => .ok (6, J2)

/-- `jacob0(q, end, start, tool, T, half, analytical)` on resolved link
indices: path resolution, `q`-length validation against the robot's joint
count, the column loop, the analytical conversion (skipped when
`half == 'trans'`), and the half selection.  The result pairs the returned
row count with the entries. -/
def jacob0 (R : ERobot) (ao : AnalyticOps) (q : List ℚ)
    (endIdx startIdx : Nat) (toolArg Targ : Option Mat4)
    (half analytical : Option String) :
    Except String (Nat × (Nat → Nat → ℚ)) :=
  let tool := toolArg.getD 1
  match R.get_path endIdx startIdx with
  | .error e => .error e
  | .ok (path, _) =>
    if q.length = R.njoints then
      let Topt : Option Mat4 :=
        match Targ with
        | some t => some t
        | none =>
          match R.fkine [q] endIdx startIdx none none with
          | [some t] => some (t * tool)
          | _ => none
      match Topt with
      | none => .error "forward kinematics failed"
      | some T =>
        let st := jacobFold R q tool T endIdx path
        match (if analytical.isSome ∧ half ≠ some "trans" then
            analyticApply ao T st.J analytical
          else .ok st.J) with
        | .error e => .error e
        | .ok J2 => halfApply half J2
    else .error "q length mismatch"

/-- Whether a `jacob0` call succeeded. -/
def exOk {α : Type} : Except String α → Bool
  | .ok _ => true
  | .error _ => false

end ERobot

namespace ERobot

lemma jacobStep_j_mono (R : ERobot) (q : List ℚ) (tool T : Mat4)
    (endIdx : Nat) (s : JacState) (li : Nat) :
    s.j ≤ (jacobStep R q tool T endIdx s li).j := by
  by_cases hj : R.isjointAt li
  · simp [jacobStep, hj]
  · simp only [jacobStep, hj]
    cases R.linkA li q <;> simp

lemma jacobStep_preserve (R : ERobot) (q : List ℚ) (tool T : Mat4)
    (endIdx : Nat) (s : JacState) (li : Nat) (r c : Nat) (hc : c < s.j) :
    (jacobStep R q tool T endIdx s li).J r c = s.J r c := by
  by_cases hj : R.isjointAt li
  · have hne : c ≠ s.j := by omega
    simp only [jacobStep, hj, if_true]
    repeat' split
    all_goals simp [writeCol, hne]
  · simp only [jacobStep, hj]
    cases R.linkA li q <;> simp

lemma jacobFold_j_mono (R : ERobot) (q : List ℚ) (tool T : Mat4)
    (endIdx : Nat) (path : List Nat) (s : JacState) :
    s.j ≤ (path.foldl (jacobStep R q tool T endIdx) s).j := by
  induction path generalizing s with
  | nil => simp
  | cons a l ih =>
    simp only [List.foldl_cons]
    exact le_trans (jacobStep_j_mono R q tool T endIdx s a) (ih _)

lemma jacobFold_preserve (R : ERobot) (q : List ℚ) (tool T : Mat4)
    (endIdx : Nat) (path : List Nat) (s : JacState) (r c : Nat)
    (hc : c < s.j) :
    (path.foldl (jacobStep R q tool T endIdx) s).J r c = s.J r c := by
  induction path generalizing s with
  | nil => simp
  | cons a l ih =>
    simp only [List.foldl_cons]
    rw [ih _ (lt_of_lt_of_le hc (jacobStep_j_mono R q tool T endIdx s a))]
    exact jacobStep_preserve R q tool T endIdx s a r c hc

end ERobot

/-- C7: in `jacob0`, every joint link on the path with a translational
motion axis (`tx`, `ty` or `tz`) produces a Jacobian column whose
translational part equals the corresponding column (`n`, `o` or `a` axis)
of the transform `U` accumulated through that link, and whose rotational
part is zero; and a non-joint link contributes no column (its step leaves
the column counter and the Jacobian unchanged, only multiplying its
constant transform into `U`). -/
theorem c7_jacob0_translational_columns (R : ERobot) (q : List ℚ)
    (tool T : Mat4) (endIdx : Nat) (pre post : List Nat) (l : Nat)
    (hj : R.isjointAt l = true)
    (hax : R.axisAt l = "tx" ∨ R.axisAt l = "ty" ∨ R.axisAt l = "tz") :
    (∀ r, r < 3 →
      (ERobot.jacobFold R q tool T endIdx (pre ++ l :: post)).J r
          (ERobot.jacobFold R q tool T endIdx pre).j =
        getU (ERobot.jacobStep R q tool T endIdx
          (ERobot.jacobFold R q tool T endIdx pre) l).U r (ERobot.axCol R l)) ∧
    (∀ r, 3 ≤ r → r < 6 →
      (ERobot.jacobFold R q tool T endIdx (pre ++ l :: post)).J r
          (ERobot.jacobFold R q tool T endIdx pre).j = 0) ∧
    (∀ (s : ERobot.JacState) (li : Nat), R.isjointAt li = false →
      (ERobot.jacobStep R q tool T endIdx s li).j = s.j ∧
      (ERobot.jacobStep R q tool T endIdx s li).J = s.J ∧
      (ERobot.jacobStep R q tool T endIdx s li).U =
        (match R.linkA li q with
         | some a => s.U * a
         | none => s.U)) := by
  set s1 := ERobot.jacobFold R q tool T endIdx pre with hs1
  set s2 := ERobot.jacobStep R q tool T endIdx s1 l with hs2
  have hfold : ERobot.jacobFold R q tool T endIdx (pre ++ l :: post) =
      post.foldl (ERobot.jacobStep R q tool T endIdx) s2 := by
    simp [ERobot.jacobFold, List.foldl_append, hs1, hs2]
  have hj2 : s2.j = s1.j + 1 := by
    simp [hs2, ERobot.jacobStep, hj]
  have hpres : ∀ r, (post.foldl (ERobot.jacobStep R q tool T endIdx) s2).J r s1.j
      = s2.J r s1.j := by
    intro r
    apply ERobot.jacobFold_preserve
    omega
  have hcol : ∀ r, s2.J r s1.j =
      (if r < 3 then getU s2.U r (ERobot.axCol R l)
       else if r < 6 then 0 else s1.J r s1.j) := by
    intro r
    rcases hax with h | h | h <;>
      simp [hs2, ERobot.jacobStep, hj, h, ERobot.writeCol, ERobot.axCol]
  refine ⟨?_, ?_, ?_⟩
  · intro r hr
    rw [hfold, hpres r, hcol r, if_pos hr]
  · intro r hr3 hr6
    rw [hfold, hpres r, hcol r, if_neg (by omega), if_pos hr6]
  · intro s li hnj
    simp only [ERobot.jacobStep, hnj, Bool.false_eq_true, if_false]
    cases R.linkA li q <;> simp

/-- Sample robot with a single prismatic (`tx`) joint link. -/
def sampleTxRobot : ERobot :=
  { links := [{ name := "t0", isjoint := true, axis := "tx" }] }

/-- C7 witness: instantiation on the one-link `tx` robot with the
singleton path. -/
theorem c7_witness :
    (sampleTxRobot.isjointAt 0 = true ∧
      (sampleTxRobot.axisAt 0 = "tx" ∨ sampleTxRobot.axisAt 0 = "ty" ∨
        sampleTxRobot.axisAt 0 = "tz")) ∧
    ((∀ r, r < 3 →
      (ERobot.jacobFold sampleTxRobot [2] 1 1 0 ([] ++ 0 :: [])).J r
          (ERobot.jacobFold sampleTxRobot [2] 1 1 0 []).j =
        getU (ERobot.jacobStep sampleTxRobot [2] 1 1 0
          (ERobot.jacobFold sampleTxRobot [2] 1 1 0 []) 0).U r
          (ERobot.axCol sampleTxRobot 0)) ∧
    (∀ r, 3 ≤ r → r < 6 →
      (ERobot.jacobFold sampleTxRobot [2] 1 1 0 ([] ++ 0 :: [])).J r
          (ERobot.jacobFold sampleTxRobot [2] 1 1 0 []).j = 0) ∧
    (∀ (s : ERobot.JacState) (li : Nat), sampleTxRobot.isjointAt li = false →
      (ERobot.jacobStep sampleTxRobot [2] 1 1 0 s li).j = s.j ∧
      (ERobot.jacobStep sampleTxRobot [2] 1 1 0 s li).J = s.J ∧
      (ERobot.jacobStep sampleTxRobot [2] 1 1 0 s li).U =
        (match sampleTxRobot.linkA li [2] with
         | some a => s.U * a
         | none => s.U))) :=
  ⟨⟨by decide, Or.inl (by decide)⟩,
    c7_jacob0_translational_columns sampleTxRobot [2] 1 1 0 [] [] 0
      (by decide) (Or.inl (by decide))⟩

/-- C8, amended: a `jacob0` call whose `analytical` argument is none of
'rpy-xyz', 'rpy-zyx', 'eul', 'exp' fails whenever `half` is not 'trans' —
but when `half == 'trans'` the analytical branch is skipped entirely, so
an invalid `analytical` is silently ignored; and a call whose `half`
argument is neither 'trans' nor 'rot' always fails. -/
theorem c8_jacob0_invalid_args (R : ERobot) (ao : ERobot.AnalyticOps)
    (q : List ℚ) (endIdx startIdx : Nat) (toolArg Targ : Option Mat4)
    (half analytical : Option String) :
    (∀ astr, analytical = some astr →
      astr ≠ "rpy-xyz" → astr ≠ "rpy-zyx" → astr ≠ "eul" → astr ≠ "exp" →
      half ≠ some "trans" →
      ERobot.exOk
        (ERobot.jacob0 R ao q endIdx startIdx toolArg Targ half analytical) =
        false) ∧
    (∀ hstr, half = some hstr → hstr ≠ "trans" → hstr ≠ "rot" →
      ERobot.exOk
        (ERobot.jacob0 R ao q endIdx startIdx toolArg Targ half analytical) =
        false) := by
  have hana : ∀ (T : Mat4) (J : Nat → Nat → ℚ) astr, astr ≠ "rpy-xyz" →
      astr ≠ "rpy-zyx" → astr ≠ "eul" → astr ≠ "exp" →
      ERobot.analyticApply ao T J (some astr) = .error "bad order specified" := by
    intro T J astr h1 h2 h3 h4
    simp only [ERobot.analyticApply]
    split <;> simp_all
  have hhalf : ∀ (J2 : Nat → Nat → ℚ) hstr, hstr ≠ "trans" → hstr ≠ "rot" →
      ERobot.halfApply (some hstr) J2 = .error "bad half specified" := by
    intro J2 hstr h1 h2
    simp only [ERobot.halfApply]
  constructor
  · intro astr ha h1 h2 h3 h4 h5
    subst ha
    simp only [ERobot.jacob0]
    split
    · rfl
    · split
      · split
        · rfl
        · rw [if_pos ⟨by simp, h5⟩, hana _ _ astr h1 h2 h3 h4]
          rfl
      · rfl
  · intro hstr hh h1 h2
    subst hh
    simp only [ERobot.jacob0]
    split
    · rfl
    · split
      · split
        · rfl
        · split
          · rfl
          · rw [hhalf _ hstr h1 h2]
            rfl
      · rfl

/-- Sample robot with a single constant link whose transform is the
identity. -/
def sampleConstRobot : ERobot := { links := [{ name := "c0", A_c := some 1 }] }

/-- Trivial analytic-conversion collaborator used for concrete calls. -/
def aoTrivial : ERobot.AnalyticOps :=
  { rpyxyz := fun _ => 1, rpyzyx := fun _ => 1, eul := fun _ => 1,
    expc := fun _ => 1 }

/-- C8 counterexample: with `half = 'trans'`, a `jacob0` call whose
`analytical` argument is the unsupported name 'bogus' SUCCEEDS (returns
the translational half) instead of failing, because the analytical branch
is guarded by `half != 'trans'`. -/
theorem c8_counterexample :
    ERobot.exOk (ERobot.jacob0 sampleConstRobot aoTrivial [] 0 0 none none
      (some "trans") (some "bogus")) = true := by
  rfl

/-- C8 witness for the amended theorem: an invalid analytical name with
`half = None` does fail. -/
theorem c8_witness :
    ((some "bogus" : Option String) = some "bogus" ∧
      ("bogus" : String) ≠ "rpy-xyz" ∧ ("bogus" : String) ≠ "rpy-zyx" ∧
      ("bogus" : String) ≠ "eul" ∧ ("bogus" : String) ≠ "exp" ∧
      (none : Option String) ≠ some "trans") ∧
    ERobot.exOk (ERobot.jacob0 sampleConstRobot aoTrivial [] 0 0 none none
      none (some "bogus")) = false :=
  ⟨⟨rfl, by decide, by decide, by decide, by decide, by decide⟩,
    (c8_jacob0_invalid_args sampleConstRobot aoTrivial [] 0 0 none none
      none (some "bogus")).1 "bogus" rfl (by decide) (by decide) (by decide)
      (by decide) (by decide)⟩

namespace ERobot

/-- Rotational 3-block of a Jacobian column: `J0[3:, c]`. -/
def rotCol (J0 : Nat → Nat → ℚ) (c : Nat) : Nat → ℚ := fun r => J0 (r + 3) c

/-- Translational 3-block of a Jacobian column: `J0[:3, c]`. -/
def trnCol (J0 : Nat → Nat → ℚ) (c : Nat) : Nat → ℚ := fun r => J0 r c

/-- The body of the double loop of `hessian0` at indices `(i, j)` with
`j <= i`: `H[:3, i, j] = cross(J0[3:, j], J0[:3, i])`,
`H[3:, i, j] = cross(J0[3:, j], J0[3:, i])`, and for `i != j` the
translational mirror write `H[:3, j, i] = H[:3, i, j]` (the rotational
rows are NOT mirrored). -/
def hBody (J0 : Nat → Nat → ℚ) (H : Nat → Nat → Nat → ℚ) (i j : Nat) :
    Nat → Nat → Nat → ℚ := fun r a b =>
  let H1 := fun r a b =>
    if r < 3 ∧ a = i ∧ b = j then cross3 (rotCol J0 j) (trnCol J0 i) r
    else H r a b
  let H2 := fun r a b =>
    if 3 ≤ r ∧ r < 6 ∧ a = i ∧ b = j then
      cross3 (rotCol J0 j) (rotCol J0 i) (r - 3)
    else H1 r a b
  if i ≠ j then
    (if r < 3 ∧ a = j ∧ b = i then H2 r i j else H2 r a b)
  else H2 r a b

/-- The double loop of `hessian0`:
`for j in range(n): for i in range(j, n): ...` over a zero tensor. -/
def hessCore (n : Nat) (J0 : Nat → Nat → ℚ) : Nat → Nat → Nat → ℚ :=
  (List.range n).foldl
    (fun H j => (List.range' j (n - j)).foldl (fun H i => hBody J0 H i j) H)
    (fun _ _ _ => 0)

/-- Closed form of the `hessian0` tensor: entry `(r, a, b)` holds the
cross-product formula for `b <= a`, the mirrored translational value for
`a < b`, zero in the rotational rows above the diagonal, and zero out of
range. -/
def hCell (n : Nat) (J0 : Nat → Nat → ℚ) (r a b : Nat) : ℚ :=
  if r < 6 ∧ a < n ∧ b < n then
    (if b ≤ a then
      (if r < 3 then cross3 (rotCol J0 b) (trnCol J0 a) r
       else cross3 (rotCol J0 b) (rotCol J0 a) (r - 3))
     else
      (if r < 3 then cross3 (rotCol J0 a) (trnCol J0 b) r else 0))
  else 0

lemma hBody_spec (J0 : Nat → Nat → ℚ) (H : Nat → Nat → Nat → ℚ)
    (i j : Nat) (r a b : Nat) :
    hBody J0 H i j r a b =
      if a = i ∧ b = j then
        (if r < 3 then cross3 (rotCol J0 j) (trnCol J0 i) r
         else if r < 6 then cross3 (rotCol J0 j) (rotCol J0 i) (r - 3)
         else H r a b)
      else if r < 3 ∧ a = j ∧ b = i ∧ i ≠ j then
        cross3 (rotCol J0 j) (trnCol J0 i) r
      else H r a b := by
  simp only [hBody]
  split_ifs <;> first | rfl | omega | simp_all

end ERobot

namespace ERobot

lemma hessInner (J0 : Nat → Nat → ℚ) (j : Nat) (H : Nat → Nat → Nat → ℚ) :
    ∀ (cnt : Nat) (r a b : Nat),
      ((List.range' j cnt).foldl (fun H i => hBody J0 H i j) H) r a b =
        if b = j ∧ j ≤ a ∧ a < j + cnt then
          (if r < 3 then cross3 (rotCol J0 j) (trnCol J0 a) r
           else if r < 6 then cross3 (rotCol J0 j) (rotCol J0 a) (r - 3)
           else H r a b)
        else if r < 3 ∧ a = j ∧ j < b ∧ b < j + cnt then
          cross3 (rotCol J0 j) (trnCol J0 b) r
        else H r a b := by
  intro cnt
  induction cnt with
  | zero =>
    intro r a b
    simp only [List.range'_zero, List.foldl_nil]
    rw [if_neg (by omega), if_neg (by omega)]
  | succ c ih =>
    intro r a b
    rw [List.range'_concat, List.foldl_append]
    simp only [List.foldl_cons, List.foldl_nil, one_mul]
    rw [hBody_spec]
    rw [ih r a b]
    split_ifs <;>
      first | rfl | omega | (subst_vars; rfl) | (subst_vars; omega) | simp_all

lemma hessOuter (J0 : Nat → Nat → ℚ) (n : Nat) :
    ∀ (Jn : Nat) (r a b : Nat), Jn ≤ n →
      ((List.range Jn).foldl
        (fun H j => (List.range' j (n - j)).foldl (fun H i => hBody J0 H i j) H)
        (fun _ _ _ => 0)) r a b =
      if b < Jn ∧ b ≤ a ∧ a < n then
        (if r < 3 then cross3 (rotCol J0 b) (trnCol J0 a) r
         else if r < 6 then cross3 (rotCol J0 b) (rotCol J0 a) (r - 3)
         else 0)
      else if r < 3 ∧ a < Jn ∧ a < b ∧ b < n then
        cross3 (rotCol J0 a) (trnCol J0 b) r
      else 0 := by
  intro Jn
  induction Jn with
  | zero => intro r a b h; simp
  | succ c ih =>
    intro r a b hle
    rw [List.range_succ, List.foldl_append]
    simp only [List.foldl_cons, List.foldl_nil]
    rw [hessInner]
    rw [ih r a b (by omega)]
    split_ifs <;>
      first | rfl | omega | (subst_vars; rfl) | (subst_vars; omega) | simp_all

/-- Closed-form characterization of `hessian0`'s double loop. -/
lemma hessCore_spec (n : Nat) (J0 : Nat → Nat → ℚ) (r a b : Nat) :
    hessCore n J0 r a b = hCell n J0 r a b := by
  rw [hessCore, hessOuter J0 n n r a b le_rfl]
  simp only [hCell]
  split_ifs <;>
    first | rfl | omega | (subst_vars; rfl) | (subst_vars; omega) | simp_all

end ERobot

namespace ERobot

/-- `hessian0(q, J0, end, start)` on resolved link indices: resolve the
path (for the joint count n), then either use the supplied `J0` or derive
it from `q` via `jacob0` (after the `getvector(q, n)` length check); the
tensor itself is the double cross-product loop.  The `verifymatrix`
shape check on a supplied `J0` is not representable on the function
embedding of a matrix and is omitted. -/
def hessian0 (R : ERobot) (ao : AnalyticOps) (q : Option (List ℚ))
    (J0o : Option (Nat → Nat → ℚ)) (endIdx startIdx : Nat) :
    Except String (Nat → Nat → Nat → ℚ) :=
  match R.get_path endIdx startIdx with
  | .error e => .error e
  | .ok (_, n) =>
    match J0o with
    | some J0 => .ok (hessCore n J0)
    | none =>
      match q with
      | none => .error "q is required when J0 is not given"
      | some qv =>
        if qv.length = n then
          match R.jacob0 ao qv endIdx startIdx none none none none with
          | .error e => .error e
          | .ok (_, J0) => .ok (hessCore n J0)
        else .error "q length mismatch"

end ERobot

/-- C2, amended: every tensor returned by `hessian0` (whether derived from
`q` or from a supplied `J0`) is symmetric in its two trailing joint
indices on the TRANSLATIONAL block `H[:3, :, :]` only; on the rotational
block `H[3:, :, :]` the entries with first trailing index below the second
are left at zero (the loop mirrors only `H[:3, j, i] = H[:3, i, j]`), so
the rotational block is not symmetric in general. -/
theorem c2_hessian_translational_symmetry (R : ERobot)
    (ao : ERobot.AnalyticOps) (q : Option (List ℚ))
    (J0o : Option (Nat → Nat → ℚ)) (endIdx startIdx : Nat)
    (H : Nat → Nat → Nat → ℚ)
    (hok : ERobot.hessian0 R ao q J0o endIdx startIdx = .ok H) :
    (∀ r, r < 3 → ∀ i j, H r i j = H r j i) ∧
    (∀ r, 3 ≤ r → ∀ i j, i < j → H r i j = 0) := by
  have hcore : ∃ n J0, H = ERobot.hessCore n J0 := by
    simp only [ERobot.hessian0] at hok
    split at hok
    · exact absurd hok (by simp)
    · split at hok
      · exact ⟨_, _, (Except.ok.injEq _ _ ▸ hok).symm⟩
      · split at hok
        · exact absurd hok (by simp)
        · split at hok
          · split at hok
            · exact absurd hok (by simp)
            · exact ⟨_, _, (Except.ok.injEq _ _ ▸ hok).symm⟩
          · exact absurd hok (by simp)
  obtain ⟨n, J0, rfl⟩ := hcore
  constructor
  · intro r hr i j
    rw [ERobot.hessCore_spec, ERobot.hessCore_spec]
    simp only [ERobot.hCell]
    split_ifs <;>
      first
      | rfl
      | omega
      | (have hd : i = j := by omega
         subst hd
         rfl)
  · intro r hr i j hij
    rw [ERobot.hessCore_spec]
    simp only [ERobot.hCell]
    split_ifs <;> first | rfl | omega

/-- Two-joint chain robot used to instantiate the Hessian theorems. -/
def chain2 : ERobot :=
  { links := [{ name := "l0", isjoint := true },
              { name := "l1", parent := some 0, isjoint := true }] }

/-- Concrete 6x2 Jacobian whose rotational columns are e1 and e2. -/
def j0cex : Nat → Nat → ℚ := fun r c =>
  if r = 3 ∧ c = 0 then 1 else if r = 4 ∧ c = 1 then 1 else 0

/-- C2 counterexample: on a 2-joint robot with a supplied Jacobian whose
rotational columns are e1 and e2, the returned tensor has
`H[5, 1, 0] = 1` but `H[5, 0, 1] = 0`, so the rotational block violates
`H[:, i, j] == H[:, j, i]`. -/
theorem c2_counterexample :
    ERobot.hessian0 chain2 aoTrivial none (some j0cex) 1 0 =
        .ok (ERobot.hessCore 2 j0cex) ∧
      ERobot.hessCore 2 j0cex 5 1 0 = 1 ∧
      ERobot.hessCore 2 j0cex 5 0 1 = 0 := by
  refine ⟨rfl, ?_, ?_⟩ <;>
    · rw [ERobot.hessCore_spec]
      simp [ERobot.hCell, cross3, ERobot.rotCol, ERobot.trnCol, j0cex]

/-- C2 witness for the amended theorem: instantiation on the 2-joint robot
with the concrete supplied Jacobian. -/
theorem c2_witness :
    (ERobot.hessian0 chain2 aoTrivial none (some j0cex) 1 0 =
      .ok (ERobot.hessCore 2 j0cex)) ∧
    ((∀ r, r < 3 → ∀ i j, ERobot.hessCore 2 j0cex r i j =
        ERobot.hessCore 2 j0cex r j i) ∧
      (∀ r, 3 ≤ r → ∀ i j, i < j → ERobot.hessCore 2 j0cex r i j = 0)) :=
  ⟨rfl, c2_hessian_translational_symmetry chain2 aoTrivial none (some j0cex)
    1 0 (ERobot.hessCore 2 j0cex) rfl⟩

/-- C10: when a precomputed Jacobian `J0` is supplied, `hessian0` never
reads `q`: for any two values of the `q` argument (including `None`) the
results coincide. -/
theorem c10_hessian_ignores_q (R : ERobot) (ao : ERobot.AnalyticOps)
    (q1 q2 : Option (List ℚ)) (J0 : Nat → Nat → ℚ) (endIdx startIdx : Nat) :
    ERobot.hessian0 R ao q1 (some J0) endIdx startIdx =
      ERobot.hessian0 R ao q2 (some J0) endIdx startIdx := by
  rfl

namespace ERobot

/-- A resolved link identity: a robot link (by arena index) or the root
link `gripper.links[0]` of the g-th gripper (gripper links live outside
the robot's own link list). -/
inductive LinkId where
  | robot (i : Nat)
  | gripperRoot (g : Nat)
deriving DecidableEq

/-- A link argument as accepted by `_get_limit_links`: an already-resolved
link (`ELink` reference) on the left, a name string on the right. -/
abbrev LArg := LinkId ⊕ String

/-- `_getlink`: a string is looked up in the robot's link-name dictionary;
a link reference is accepted when it belongs to the robot's links or to a
gripper's links. -/
def getlink (R : ERobot) : LArg → Except String LinkId
  | .inr s =>
    match R.links.findIdx? (fun l => l.name = s) with
    | some i => .ok (.robot i)
    | none => .error ("no link named " ++ s)
  | .inl (.robot i) =>
    if i < R.links.length then .ok (.robot i)
    else .error "link not in robot links"
  | .inl (.gripperRoot g) =>
    if g < R.grippers.length then .ok (.gripperRoot g)
    else .error "link not in robot links"

/-- The gripper scan of the explicit-`end` branch: a gripper whose name
equals the still-unresolved `end` string replaces it by the gripper's root
link and records the gripper's tool; once `end` is a link the later
comparisons no longer match. -/
def gripperScan (grippers : List Gripper) (e0 : LArg) : LArg × Option Mat4 :=
  (List.range grippers.length).foldl
    (fun st g =>
      match st.1 with
      | .inr s =>
        match grippers[g]? with
        | some gr =>
          if s = gr.name then (.inl (.gripperRoot g), some gr.tool) else st
        | none => st
      | _ => st)
    (e0, none)

/-- `_get_limit_links(end, start)`: with no explicit `end`, the sole
gripper's root link (with its tool) if exactly one gripper exists, else
the sole end-effector if exactly one exists, else an error; an explicit
`end` is matched against gripper names and then validated by `_getlink`.
`start` defaults to the base link. -/
def get_limit_links (R : ERobot) (endA startA : Option LArg) :
    Except String (LinkId × LinkId × Option Mat4) :=
  let endRes : Except String (LinkId × Option Mat4) :=
    match endA with
    | none =>
      match R.grippers with
      | [g] => .ok (.gripperRoot 0, some g.tool)
      | [] =>
        match R.eeLinks with
        | [e] => .ok (.robot e, none)
        | _ => .error "Must specify which end-effector"
      | _ => .error "Must specify which gripper"
    | some e0 =>
      let sc := gripperScan R.grippers e0
      match getlink R sc.1 with
      | .ok l => .ok (l, sc.2)
      | .error msg => .error msg
  match endRes with
  | .error msg => .error msg
  | .ok (e, tool) =>
    match startA with
    | none => .ok (e, .robot R.baseLink, tool)
    | some s0 =>
      match getlink R s0 with
      | .ok st => .ok (e, st, tool)
      | .error msg => .error msg

lemma gripperScan_no_match (grippers : List Gripper) (s : String)
    (h : ∀ gr ∈ grippers, gr.name ≠ s) :
    gripperScan grippers (.inr s) = (.inr s, none) := by
  rw [gripperScan]
  have key : ∀ (gl : List Nat),
      gl.foldl
        (fun st g =>
          match st.1 with
          | .inr s =>
            match grippers[g]? with
            | some gr =>
              if s = gr.name then
                ((.inl (.gripperRoot g) : LArg), some gr.tool)
              else st
            | none => st
          | _ => st)
        ((.inr s : LArg), none) = (.inr s, none) := by
    intro gl
    induction gl with
    | nil => rfl
    | cons g gl ih =>
      simp only [List.foldl_cons]
      cases hg : grippers[g]? with
      | none => simpa [hg] using ih
      | some gr =>
        have hne : ¬ s = gr.name := fun hs =>
          h gr (List.getElem?_mem hg) (hs ▸ rfl)
        simpa [hg, hne] using ih
  exact key _

end ERobot

/-- C4: default end resolution of `_get_limit_links`: a robot with exactly
one gripper resolves the default end to that gripper's root (attachment)
link together with the gripper's tool transform; a robot with no gripper
and exactly one end-effector resolves to that end-effector; a robot with
no gripper and more than one end-effector fails with the
ambiguous-end-effector error; and supplying an explicit end-effector name
(of a robot link not named like a gripper) succeeds. -/
theorem c4_get_limit_links (R : ERobot) :
    (∀ g, R.grippers = [g] →
      ERobot.get_limit_links R none none =
        .ok (.gripperRoot 0, .robot R.baseLink, some g.tool)) ∧
    (∀ e, R.grippers = [] → R.eeLinks = [e] →
      ERobot.get_limit_links R none none =
        .ok (.robot e, .robot R.baseLink, none)) ∧
    (R.grippers = [] → 1 < R.eeLinks.length →
      ERobot.get_limit_links R none none =
        .error "Must specify which end-effector") ∧
    (∀ s i, (∀ gr ∈ R.grippers, gr.name ≠ s) →
      R.links.findIdx? (fun l => l.name = s) = some i →
      ERobot.get_limit_links R (some (.inr s)) none =
        .ok (.robot i, .robot R.baseLink, none)) := by
  refine ⟨?_, ?_, ?_, ?_⟩
  · intro g hg
    simp [ERobot.get_limit_links, hg]
  · intro e hg he
    simp [ERobot.get_limit_links, hg, he]
  · intro hg hlen
    match hee : R.eeLinks with
    | [] => rw [hee] at hlen; simp at hlen
    | [e] => rw [hee] at hlen; simp at hlen
    | e1 :: e2 :: rest => simp [ERobot.get_limit_links, hg, hee]
  · intro s i hng hfound
    simp [ERobot.get_limit_links, ERobot.gripperScan_no_match R.grippers s hng,
      ERobot.getlink, hfound]

/-- Sample robot with exactly one gripper attached to link 1. -/
def gripRobot : ERobot :=
  { links := [{ name := "base" }, { name := "flange", parent := some 0 }],
    grippers := [{ name := "g0", tool := 1, parentLink := some 1 }],
    eeLinks := [1] }

/-- Sample robot with no gripper and a single end-effector. -/
def singleEERobot : ERobot :=
  { links := [{ name := "base" }, { name := "ee", parent := some 0 }],
    eeLinks := [1] }

/-- Sample branched robot with no gripper and two leaf end-effectors. -/
def branch2Robot : ERobot :=
  { links := [{ name := "base" }, { name := "ee1", parent := some 0 },
              { name := "ee2", parent := some 0 }],
    eeLinks := [1, 2] }

/-- C4 witness: the four resolution cases instantiated on concrete robots
(one gripper; one end-effector; two ambiguous end-effectors; explicit
end-effector name). -/
theorem c4_witness :
    (gripRobot.grippers = [{ name := "g0", tool := 1, parentLink := some 1 }] ∧
      ERobot.get_limit_links gripRobot none none =
        .ok (.gripperRoot 0, .robot gripRobot.baseLink, some (1 : Mat4))) ∧
    (singleEERobot.grippers = [] ∧ singleEERobot.eeLinks = [1] ∧
      ERobot.get_limit_links singleEERobot none none =
        .ok (.robot 1, .robot singleEERobot.baseLink, none)) ∧
    (branch2Robot.grippers = [] ∧ 1 < branch2Robot.eeLinks.length ∧
      ERobot.get_limit_links branch2Robot none none =
        .error "Must specify which end-effector") ∧
    ((∀ gr ∈ branch2Robot.grippers, gr.name ≠ "ee2") ∧
      branch2Robot.links.findIdx? (fun l => l.name = "ee2") = some 2 ∧
      ERobot.get_limit_links branch2Robot (some (.inr "ee2")) none =
        .ok (.robot 2, .robot branch2Robot.baseLink, none)) :=
  ⟨⟨rfl, (c4_get_limit_links gripRobot).1 _ rfl⟩,
    ⟨rfl, rfl, (c4_get_limit_links singleEERobot).2.1 1 rfl rfl⟩,
    ⟨rfl, by decide, (c4_get_limit_links branch2Robot).2.2.1 rfl (by decide)⟩,
    ⟨by decide, by decide,
      (c4_get_limit_links branch2Robot).2.2.2 "ee2" 2 (by decide) (by decide)⟩⟩

abbrev Vec6 := Fin 6 → ℚ

abbrev Mat6 := Matrix (Fin 6) (Fin 6) ℚ

/-- Spatial-vector operations of the external spatialmath collaborator.
Modelled from the spec: "spatial cross product and Xup-transform follow
standard spatial-vector-algebra rules (adjoint transform for
velocities/accelerations, dual adjoint for forces)"; the precise matrix
forms live outside the sources, so the recursion is proved for any choice
of these operations. -/
structure SpatialOps where
  xformV : Mat4 → Vec6 → Vec6
  xformF : Mat4 → Vec6 → Vec6
  crossV : Vec6 → Vec6 → Vec6
  crossF : Vec6 → Vec6 → Vec6

/-- A link as consumed by `rne`: `robot[j]` at joint index j.  `parent` is
the parent's joint index (`robot[j].parent.jindex`); `A` the link
transform at a joint value (external `ELink.A`); `s` the joint motion
subspace `link.v.s`; `inertia` the spatial inertia `SpatialInertia(m, r)`
(modelled from the spec as the assembled 6x6 operator). -/
structure RneLink where
  parent : Option Nat := none
  A : ℚ → Mat4 := fun _ => 1
  s : Vec6 := fun _ => 0
  inertia : Mat6 := 0

namespace RNE

def rneParent (L : List RneLink) (j : Nat) : Option Nat :=
  (L[j]?).bind (·.parent)

def rneS (L : List RneLink) (j : Nat) : Vec6 :=
  ((L[j]?).map (·.s)).getD (fun _ => 0)

def rneI (L : List RneLink) (j : Nat) : Mat6 :=
  ((L[j]?).map (·.inertia)).getD 0

/-- `Xup[j] = robot[j].A(q[j]).inv()`. -/
def rneXup (L : List RneLink) (q : Nat → ℚ) (j : Nat) : Mat4 :=
  inv4 (((L[j]?).map (fun l => l.A (q j))).getD 1)

/-- `np.sum(f[j].A * s[j])`: the dot product of two spatial vectors. -/
def dot6 (x y : Vec6) : ℚ := (Finset.univ : Finset (Fin 6)).sum fun k => x k * y k

/-- Joint indexing is consistent with the tree: every link's parent has a
strictly smaller joint index (the precondition the spec says the Link Tree
Builder guarantees and `rne` assumes). -/
def rneParentLt (L : List RneLink) : Bool :=
  (List.range L.length).all fun j =>
    match rneParent L j with
    | some p => decide (p < j)
    | none => true

/-- One step of the forward recursion of `rne` at joint index j: the
joint-local velocity `vJ = s[j] * qd[j]`, velocity and acceleration
propagation from the parent (gravity at the base), and the net spatial
force from the link inertia. -/
def rneFwdStep (ops : SpatialOps) (L : List RneLink) (q qd qdd : Nat → ℚ)
    (agrav : Vec6) (st : (Nat → Vec6) × (Nat → Vec6) × (Nat → Vec6))
    (j : Nat) : (Nat → Vec6) × (Nat → Vec6) × (Nat → Vec6) :=
  let v := st.1
  let a := st.2.1
  let f := st.2.2
  let vJ : Vec6 := fun k => rneS L j k * qd j
  let Xup := rneXup L q j
  let vj : Vec6 :=
    match rneParent L j with
    | none => vJ
    | some jp => ops.xformV Xup (v jp) + vJ
  let aj : Vec6 :=
    match rneParent L j with
    | none => ops.xformV Xup agrav + (fun k => rneS L j k * qdd j)
    | some jp =>
      ops.xformV Xup (a jp) + (fun k => rneS L j k * qdd j) + ops.crossV vj vJ
  let fj : Vec6 := (rneI L j).mulVec aj + ops.crossF vj ((rneI L j).mulVec vj)
  (Function.update v j vj, Function.update a j aj, Function.update f j fj)

/-- The forward pass: joints visited in ascending joint-index order. -/
def rneFwd (ops : SpatialOps) (L : List RneLink) (q qd qdd : Nat → ℚ)
    (agrav : Vec6) : (Nat → Vec6) × (Nat → Vec6) × (Nat → Vec6) :=
  (List.range L.length).foldl (rneFwdStep ops L q qd qdd agrav)
    (fun _ => 0, fun _ => 0, fun _ => 0)

/-- One step of the backward recursion at joint index j:
`Q[j] = np.sum(f[j].A * s[j])`, and if j has a parent,
`f[p] = f[p] + Xup[j] * f[j]`. -/
def rneBwdStep (ops : SpatialOps) (L : List RneLink) (q : Nat → ℚ)
    (st : (Nat → ℚ) × (Nat → Vec6)) (j : Nat) : (Nat → ℚ) × (Nat → Vec6) :=
  let Q2 := Function.update st.1 j (dot6 (st.2 j) (rneS L j))
  match rneParent L j with
  | some jp =>
    (Q2, Function.update st.2 jp
      (st.2 jp + ops.xformF (rneXup L q j) (st.2 j)))
  | none => (Q2, st.2)

/-- The backward pass over a forward-pass force field: joints visited in
DESCENDING joint-index order (`for j in reversed(range(0, n))`). -/
def rneBwd (ops : SpatialOps) (L : List RneLink) (q : Nat → ℚ)
    (ffwd : Nat → Vec6) : (Nat → ℚ) × (Nat → Vec6) :=
  ((List.range L.length).reverse).foldl (rneBwdStep ops L q)
    (fun _ => 0, ffwd)

/-- `rne(q, qd, qdd, gravity)`: forward pass then backward pass; returns
the generalized joint forces Q. -/
def rne (ops : SpatialOps) (L : List RneLink) (q qd qdd : Nat → ℚ)
    (agrav : Vec6) : Nat → ℚ :=
  (rneBwd ops L q (rneFwd ops L q qd qdd agrav).2.2).1

/-- Children of joint j in ascending joint-index order. -/
def childrenR (L : List RneLink) (j : Nat) : List Nat :=
  (List.range L.length).filter (fun c => rneParent L c = some j)

/-- The total spatial force link j transmits: its own forward-pass force
plus the Xup-transformed total forces of all its children (fuelled; the
fuel `L.length - j` suffices when parents precede children). -/
def ftotAux (ops : SpatialOps) (L : List RneLink) (q : Nat → ℚ)
    (ffwd : Nat → Vec6) : Nat → Nat → Vec6
  | 0, j => ffwd j
  | fuel + 1, j =>
    ffwd j + ((childrenR L j).map
      (fun c => ops.xformF (rneXup L q c) (ftotAux ops L q ffwd fuel c))).sum

def ftot (ops : SpatialOps) (L : List RneLink) (q : Nat → ℚ)
    (ffwd : Nat → Vec6) (j : Nat) : Vec6 :=
  ftotAux ops L q ffwd (L.length - j) j

lemma rneParent_lt {L : List RneLink} (hwf : rneParentLt L = true) {c p : Nat}
    (h : rneParent L c = some p) : p < c := by
  have hc : c < L.length := by
    by_contra hge
    have : L[c]? = none := by
      simp [List.getElem?_eq_none_iff]; omega
    simp [rneParent, this] at h
  have := (List.all_eq_true.mp hwf) c (by simpa using hc)
  simp only [h] at this
  exact of_decide_eq_true this

lemma mem_childrenR {L : List RneLink} {j c : Nat} :
    c ∈ childrenR L j ↔ c < L.length ∧ rneParent L c = some j := by
  simp [childrenR, List.mem_filter]

lemma childrenR_nodup (L : List RneLink) (j : Nat) :
    (childrenR L j).Nodup :=
  (List.nodup_range _).filter _

lemma childrenR_gt {L : List RneLink} (hwf : rneParentLt L = true) {j c : Nat}
    (h : c ∈ childrenR L j) : j < c :=
  rneParent_lt hwf (mem_childrenR.mp h).2

/-- The fuelled total force is fuel-independent once the fuel reaches
`L.length - j`. -/
lemma ftotAux_fuel (ops : SpatialOps) (L : List RneLink) (q : Nat → ℚ)
    (ffwd : Nat → Vec6) (hwf : rneParentLt L = true) :
    ∀ fuel fuel' j, L.length ≤ fuel + j → L.length ≤ fuel' + j →
      ftotAux ops L q ffwd fuel j = ftotAux ops L q ffwd fuel' j := by
  intro fuel
  induction fuel with
  | zero =>
    intro fuel' j h h'
    match fuel' with
    | 0 => rfl
    | f + 1 =>
      have hch : childrenR L j = [] := by
        rw [List.eq_nil_iff_forall_not_mem]
        intro c hc
        have h1 := (mem_childrenR.mp hc).1
        have h2 := childrenR_gt hwf hc
        omega
      simp [ftotAux, hch]
  | succ fl ih =>
    intro fuel' j h h'
    match fuel' with
    | 0 =>
      have hch : childrenR L j = [] := by
        rw [List.eq_nil_iff_forall_not_mem]
        intro c hc
        have h1 := (mem_childrenR.mp hc).1
        have h2 := childrenR_gt hwf hc
        omega
      simp [ftotAux, hch]
    | f + 1 =>
      simp only [ftotAux]
      congr 1
      congr 1
      apply List.map_congr_left
      intro c hc
      have h1 := (mem_childrenR.mp hc).1
      have h2 := childrenR_gt hwf hc
      rw [ih f c (by omega) (by omega)]

end RNE

namespace RNE

lemma filter_ge_eq_of_not_mem (k : Nat) (l : List Nat) (h : k ∉ l) :
    l.filter (fun c => k ≤ c) = l.filter (fun c => k + 1 ≤ c) := by
  apply List.filter_congr
  intro c hc
  have hck : c ≠ k := fun he => h (he ▸ hc)
  simp only [decide_eq_decide]
  omega

lemma filter_ge_succ_sum (g : Nat → Vec6) (k : Nat) :
    ∀ (l : List Nat), l.Nodup → k ∈ l →
      ((l.filter (fun c => k ≤ c)).map g).sum =
        g k + ((l.filter (fun c => k + 1 ≤ c)).map g).sum := by
  intro l
  induction l with
  | nil => intro _ h; simp at h
  | cons x l ih =>
    intro hnd hk
    rcases List.nodup_cons.mp hnd with ⟨hxl, hnd2⟩
    by_cases hx : x = k
    · subst hx
      have h1 : (x :: l).filter (fun c => x ≤ c) =
          x :: l.filter (fun c => x ≤ c) := by simp
      have h2 : (x :: l).filter (fun c => x + 1 ≤ c) =
          l.filter (fun c => x + 1 ≤ c) := by simp
      rw [h1, h2, List.map_cons, List.sum_cons,
        filter_ge_eq_of_not_mem x l hxl]
    · have hk2 : k ∈ l := by
        rcases List.mem_cons.mp hk with h | h
        · exact absurd h.symm hx
        · exact h
      by_cases hxk : k ≤ x
      · have hxk1 : k + 1 ≤ x := by omega
        have h1 : (x :: l).filter (fun c => k ≤ c) =
            x :: l.filter (fun c => k ≤ c) := by simp [hxk]
        have h2 : (x :: l).filter (fun c => k + 1 ≤ c) =
            x :: l.filter (fun c => k + 1 ≤ c) := by simp [hxk1]
        rw [h1, h2, List.map_cons, List.sum_cons, List.map_cons,
          List.sum_cons, ih hnd2 hk2]
        rw [← add_assoc, add_comm (g x) (g k), add_assoc]
      · have hxk1 : ¬ (k + 1 ≤ x) := by omega
        have h1 : (x :: l).filter (fun c => k ≤ c) =
            l.filter (fun c => k ≤ c) := by simp [hxk]
        have h2 : (x :: l).filter (fun c => k + 1 ≤ c) =
            l.filter (fun c => k + 1 ≤ c) := by simp [hxk1]
        rw [h1, h2, ih hnd2 hk2]

lemma ftot_of_le {ops : SpatialOps} {L : List RneLink} {q : Nat → ℚ}
    {ffwd : Nat → Vec6} {i : Nat} (h : L.length ≤ i) :
    ftot ops L q ffwd i = ffwd i := by
  rw [ftot, Nat.sub_eq_zero_of_le h]
  rfl

lemma childrenR_filter_nil {L : List RneLink} (i : Nat) :
    (childrenR L i).filter (fun c => L.length ≤ c) = [] := by
  rw [List.eq_nil_iff_forall_not_mem]
  intro c hc
  rw [List.mem_filter] at hc
  have h1 := (mem_childrenR.mp hc.1).1
  have h2 := of_decide_eq_true hc.2
  omega

/-- Unfolding of the total transmitted force at a live joint index. -/
lemma ftot_lt {ops : SpatialOps} {L : List RneLink} {q : Nat → ℚ}
    {ffwd : Nat → Vec6} (hwf : rneParentLt L = true) {k : Nat}
    (h : k < L.length) :
    ftot ops L q ffwd k =
      ffwd k + ((childrenR L k).map
        (fun c => ops.xformF (rneXup L q c) (ftot ops L q ffwd c))).sum := by
  have hd : L.length - k = (L.length - k - 1) + 1 := by omega
  rw [ftot, hd]
  simp only [ftotAux]
  congr 1
  congr 1
  apply List.map_congr_left
  intro c hc
  have h1 := (mem_childrenR.mp hc).1
  have h2 := childrenR_gt hwf hc
  rw [ftotAux_fuel ops L q ffwd hwf _ (L.length - c) c (by omega) (by omega)]
  rfl

end RNE

namespace RNE

lemma rneBwdStep_fst (ops : SpatialOps) (L : List RneLink) (q : Nat → ℚ)
    (st : (Nat → ℚ) × (Nat → Vec6)) (j : Nat) :
    (rneBwdStep ops L q st j).1 =
      Function.update st.1 j (dot6 (st.2 j) (rneS L j)) := by
  simp only [rneBwdStep]
  cases rneParent L j <;> rfl

lemma rneBwdStep_snd (ops : SpatialOps) (L : List RneLink) (q : Nat → ℚ)
    (st : (Nat → ℚ) × (Nat → Vec6)) (j : Nat) :
    (rneBwdStep ops L q st j).2 =
      (match rneParent L j with
       | some jp => Function.update st.2 jp
           (st.2 jp + ops.xformF (rneXup L q j) (st.2 j))
       | none => st.2) := by
  simp only [rneBwdStep]
  cases rneParent L j <;> rfl

/-- Invariant of the descending backward pass: after processing joint
indices `k, ..., n-1` (in descending order), every processed `Q[i]` is the
dot product of the fully accumulated force `ftot i` with `s[i]`, every
processed `f[i]` equals `ftot i`, and every unprocessed `f[i]` carries
exactly the contributions of its already-processed children. -/
lemma rneBwd_inv (ops : SpatialOps) (L : List RneLink) (q : Nat → ℚ)
    (ffwd : Nat → Vec6) (hwf : rneParentLt L = true) :
    ∀ d k, k + d = L.length →
      (∀ i, (((List.range' k d).reverse).foldl (rneBwdStep ops L q)
          (fun _ => 0, ffwd)).1 i =
        if k ≤ i ∧ i < L.length then dot6 (ftot ops L q ffwd i) (rneS L i)
        else 0) ∧
      (∀ i, (((List.range' k d).reverse).foldl (rneBwdStep ops L q)
          (fun _ => 0, ffwd)).2 i =
        if k ≤ i then ftot ops L q ffwd i
        else ffwd i + (((childrenR L i).filter (fun c => k ≤ c)).map
          (fun c => ops.xformF (rneXup L q c) (ftot ops L q ffwd c))).sum) := by
  intro d
  induction d with
  | zero =>
    intro k hk
    have hk0 : k = L.length := by omega
    subst hk0
    simp only [List.range'_zero, List.reverse_nil, List.foldl_nil]
    constructor
    · intro i
      rw [if_neg (by omega)]
    · intro i
      by_cases hik : L.length ≤ i
      · rw [if_pos hik, ftot_of_le hik]
      · rw [if_neg hik, childrenR_filter_nil]
        simp
  | succ d ih =>
    intro k hk
    have hkn : k < L.length := by omega
    have hsplit : ((List.range' k (d + 1)).reverse) =
        ((List.range' (k + 1) d).reverse) ++ [k] := by
      rw [List.range'_succ, List.reverse_cons]
    rw [hsplit, List.foldl_append]
    obtain ⟨ihQ, ihF⟩ := ih (k + 1) (by omega)
    set st := ((List.range' (k + 1) d).reverse).foldl (rneBwdStep ops L q)
      (fun _ => 0, ffwd) with hst
    simp only [List.foldl_cons, List.foldl_nil]
    have hstFk : st.2 k = ftot ops L q ffwd k := by
      rw [ihF k, if_neg (by omega)]
      have hfull : (childrenR L k).filter (fun c => k + 1 ≤ c) =
          childrenR L k := by
        rw [List.filter_eq_self]
        intro c hc
        have := childrenR_gt hwf hc
        simp only [decide_eq_true_eq]
        omega
      rw [hfull, ← ftot_lt hwf hkn]
    constructor
    · intro i
      rw [rneBwdStep_fst]
      by_cases hik : i = k
      · subst hik
        rw [Function.update_same, hstFk, if_pos ⟨le_refl _, hkn⟩]
      · rw [Function.update_noteq hik, ihQ i]
        by_cases h1 : k + 1 ≤ i ∧ i < L.length
        · rw [if_pos h1, if_pos (by omega)]
        · rw [if_neg h1, if_neg (by omega)]
    · intro i
      rw [rneBwdStep_snd]
      cases hpar : rneParent L k with
      | none =>
        show st.2 i = _
        rw [ihF i]
        by_cases hik : k ≤ i
        · by_cases hik2 : i = k
          · subst hik2
            rw [if_neg (by omega), if_pos (le_refl _)]
            have hfull : (childrenR L i).filter (fun c => i + 1 ≤ c) =
                childrenR L i := by
              rw [List.filter_eq_self]
              intro c hc
              have := childrenR_gt hwf hc
              simp only [decide_eq_true_eq]
              omega
            rw [hfull, ← ftot_lt hwf hkn]
          · rw [if_pos (by omega), if_pos hik]
        · rw [if_neg (by omega), if_neg hik]
          have hnm : k ∉ childrenR L i := by
            intro hmem
            rw [mem_childrenR] at hmem
            rw [hmem.2] at hpar
            exact Option.noConfusion hpar
          rw [filter_ge_eq_of_not_mem k _ hnm]
      | some jp =>
        show Function.update st.2 jp
          (st.2 jp + ops.xformF (rneXup L q k) (st.2 k)) i = _
        have hjp : jp < k := rneParent_lt hwf hpar
        by_cases hijp : i = jp
        · subst hijp
          rw [Function.update_same, ihF i, if_neg (by omega), hstFk,
            if_neg (by omega)]
          have hkmem : k ∈ childrenR L i := by
            rw [mem_childrenR]
            exact ⟨hkn, hpar⟩
          rw [filter_ge_succ_sum
            (fun c => ops.xformF (rneXup L q c) (ftot ops L q ffwd c)) k _
            (childrenR_nodup L i) hkmem]
          abel
        · rw [Function.update_noteq hijp, ihF i]
          by_cases hik : k ≤ i
          · by_cases hik2 : i = k
            · subst hik2
              rw [if_neg (by omega), if_pos (le_refl _)]
              have hfull : (childrenR L i).filter (fun c => i + 1 ≤ c) =
                  childrenR L i := by
                rw [List.filter_eq_self]
                intro c hc
                have := childrenR_gt hwf hc
                simp only [decide_eq_true_eq]
                omega
              rw [hfull, ← ftot_lt hwf hkn]
            · rw [if_pos (by omega), if_pos hik]
          · rw [if_neg (by omega), if_neg hik]
            have hnm : k ∉ childrenR L i := by
              intro hmem
              rw [mem_childrenR] at hmem
              rw [hmem.2] at hpar
              have : jp = i := by
                have := Option.some.injEq i jp ▸ hpar
                simp at hpar
                omega
              exact hijp this.symm
            rw [filter_ge_eq_of_not_mem k _ hnm]

end RNE

/-- C9: in `rne`'s backward pass (joints visited in descending joint-index
order over `reversed(range(n))`), the generalized force `Q[j]` equals the
dot product of the spatial force `f[j]` at visit time with the joint
motion subspace `s[j]`, and parent forces are accumulated as
`f[p] += Xup[j] * f[j]`: consequently `f[j]` at visit time is the total
force `ftot j` (the forward-pass force of j plus the Xup-transformed total
forces of all its children), and `Q[j] = dot(ftot j, s[j])`. -/
theorem c9_rne_backward_pass (ops : SpatialOps) (L : List RneLink)
    (q qd qdd : Nat → ℚ) (agrav : Vec6)
    (hwf : RNE.rneParentLt L = true) :
    (∀ j, j < L.length →
      RNE.rne ops L q qd qdd agrav j =
        RNE.dot6
          (RNE.ftot ops L q (RNE.rneFwd ops L q qd qdd agrav).2.2 j)
          (RNE.rneS L j)) ∧
    (∀ i, (RNE.rneBwd ops L q (RNE.rneFwd ops L q qd qdd agrav).2.2).2 i =
      RNE.ftot ops L q (RNE.rneFwd ops L q qd qdd agrav).2.2 i) := by
  have key := RNE.rneBwd_inv ops L q
    (RNE.rneFwd ops L q qd qdd agrav).2.2 hwf L.length 0 (by omega)
  rw [← List.range_eq_range'] at key
  constructor
  · intro j hj
    show (RNE.rneBwd ops L q (RNE.rneFwd ops L q qd qdd agrav).2.2).1 j = _
    rw [RNE.rneBwd, key.1 j, if_pos ⟨by omega, hj⟩]
  · intro i
    rw [RNE.rneBwd, key.2 i, if_pos (by omega)]

/-- Identity spatial operations for concrete instantiation. -/
def rneOpsId : SpatialOps :=
  { xformV := fun _ v => v, xformF := fun _ v => v,
    crossV := fun v _ => v, crossF := fun v _ => v }

/-- Two-joint chain for the RNE theorems: joint 0 is the base, joint 1 its
child. -/
def rneL2 : List RneLink := [{ parent := none }, { parent := some 0 }]

/-- C9 witness: instantiation of the backward-pass theorem on a two-joint
chain with identity spatial operations. -/
theorem c9_witness :
    RNE.rneParentLt rneL2 = true ∧
    ((∀ j, j < rneL2.length →
      RNE.rne rneOpsId rneL2 (fun _ => 0) (fun _ => 0) (fun _ => 0)
          (fun _ => 0) j =
        RNE.dot6
          (RNE.ftot rneOpsId rneL2 (fun _ => 0)
            (RNE.rneFwd rneOpsId rneL2 (fun _ => 0) (fun _ => 0) (fun _ => 0)
              (fun _ => 0)).2.2 j)
          (RNE.rneS rneL2 j)) ∧
    (∀ i, (RNE.rneBwd rneOpsId rneL2 (fun _ => 0)
        (RNE.rneFwd rneOpsId rneL2 (fun _ => 0) (fun _ => 0) (fun _ => 0)
          (fun _ => 0)).2.2).2 i =
      RNE.ftot rneOpsId rneL2 (fun _ => 0)
        (RNE.rneFwd rneOpsId rneL2 (fun _ => 0) (fun _ => 0) (fun _ => 0)
          (fun _ => 0)).2.2 i)) :=
  ⟨by decide,
    c9_rne_backward_pass rneOpsId rneL2 (fun _ => 0) (fun _ => 0)
      (fun _ => 0) (fun _ => 0) (by decide)⟩

/-- A raw link as supplied to `BaseERobot.__init__` (after name/parent
resolution): parent arena index, joint flag, and the explicit `jindex`
argument (`None` when not supplied). -/
structure CLink where
  parent : Option Nat := none
  isjoint : Bool := false
  jidx : Option Nat := none
deriving DecidableEq

namespace Construct

def cparent (L : List CLink) (i : Nat) : Option Nat := (L[i]?).bind (·.parent)

def cjoint (L : List CLink) (i : Nat) : Bool :=
  ((L[i]?).map (·.isjoint)).getD false

/-- The joint count `n` computed by the constructor (no grippers). -/
def countJC (L : List CLink) : Nat := (L.filter (·.isjoint)).length

/-- Children of link i in arena order (the order the constructor appends
them while scanning the link list). -/
def children (L : List CLink) (i : Nat) : List Nat :=
  (List.range L.length).filter (fun j => cparent L j = some i)

/-- The base-link scan: exactly one parentless link is the base; a second
one raises 'Multiple base links' (no parentless link leaves the base
unset, which crashes the subsequent traversal — modelled as an error). -/
def scanBase (L : List CLink) : Except String Nat :=
  match (List.range L.length).filter (fun i => cparent L i = none) with
  | [b] => .ok b
  | [] => .error "no base link"
  | _ => .error "Multiple base links"

/-- Parents are stored before children (the arena form of the acyclicity
the link tree enjoys). -/
def parentLtC (L : List CLink) : Bool :=
  (List.range L.length).all fun i =>
    match cparent L i with
    | some p => decide (p < i)
    | none => true

/-- The recursive `vis_children` of `dfs_links`: append the current link to
`visited`, then recurse into each not-yet-visited child in order. -/
def visChildren (L : List CLink) : Nat → Nat → List Nat → List Nat
  | 0, _, visited => visited
  | fuel + 1, i, visited =>
    (children L i).foldl
      (fun vis c => if c ∈ vis then vis else visChildren L fuel c vis)
      (visited ++ [i])

/-- `dfs_links(start)`: all links reachable from `start`, in depth-first
order. -/
def dfs_links (L : List CLink) (start : Nat) : List Nat :=
  visChildren L (L.length + 1) start []

/-- Reachability along child edges from the base. -/
inductive Reaches (L : List CLink) : Nat → Nat → Prop
  | refl (i : Nat) : Reaches L i i
  | step {i j k : Nat} : Reaches L i j → cparent L k = some j → Reaches L i k

lemma cparent_isSome_lt {L : List CLink} {i p : Nat}
    (h : cparent L i = some p) : i < L.length := by
  by_contra hge
  have : L[i]? = none := by
    simp [List.getElem?_eq_none_iff]; omega
  simp [cparent, this] at h

lemma cparent_lt {L : List CLink} (hwf : parentLtC L = true) {i p : Nat}
    (h : cparent L i = some p) : p < i := by
  have hi : i < L.length := cparent_isSome_lt h
  have := (List.all_eq_true.mp hwf) i (by simpa using hi)
  simp only [h] at this
  exact of_decide_eq_true this

lemma mem_children {L : List CLink} {i c : Nat} :
    c ∈ children L i ↔ c < L.length ∧ cparent L c = some i := by
  simp [children, List.mem_filter]

lemma nodup_bounded_length {l : List Nat} {n : Nat} (hnd : l.Nodup)
    (hb : ∀ x ∈ l, x < n) : l.length ≤ n := by
  have h1 : l.toFinset ⊆ Finset.range n := by
    intro x hx
    rw [List.mem_toFinset] at hx
    rw [Finset.mem_range]
    exact hb x hx
  have h2 := Finset.card_le_card h1
  rwa [List.toFinset_card_of_nodup hnd, Finset.card_range] at h2

end Construct

namespace Construct

/-- Specification of the child-processing fold inside `vis_children`,
parameterized by the induction hypothesis for the recursive calls: the
fold extends the visited list, keeps it duplicate-free and in range,
visits every listed child, and leaves every newly visited link closed
under its children. -/
lemma dfsFold_spec (L : List CLink) (f : Nat)
    (IH : ∀ i vis, vis.Nodup → (∀ x ∈ vis, x < L.length) → i < L.length →
      i ∉ vis → L.length ≤ f + vis.length →
      (∃ t, visChildren L f i vis = (vis ++ [i]) ++ t) ∧
      (visChildren L f i vis).Nodup ∧
      (∀ x ∈ visChildren L f i vis, x < L.length) ∧
      (∀ x ∈ visChildren L f i vis, x ∉ vis →
        ∀ c ∈ children L x, c ∈ visChildren L f i vis)) :
    ∀ (cs : List Nat) (vis0 : List Nat), (∀ c ∈ cs, c < L.length) →
      vis0.Nodup → (∀ x ∈ vis0, x < L.length) →
      L.length ≤ f + vis0.length →
      (∃ t, cs.foldl
          (fun vis c => if c ∈ vis then vis else visChildren L f c vis)
          vis0 = vis0 ++ t) ∧
      (cs.foldl (fun vis c => if c ∈ vis then vis else visChildren L f c vis)
          vis0).Nodup ∧
      (∀ x ∈ cs.foldl
          (fun vis c => if c ∈ vis then vis else visChildren L f c vis) vis0,
        x < L.length) ∧
      (∀ c ∈ cs, c ∈ cs.foldl
          (fun vis c => if c ∈ vis then vis else visChildren L f c vis) vis0) ∧
      (∀ x ∈ cs.foldl
          (fun vis c => if c ∈ vis then vis else visChildren L f c vis) vis0,
        x ∉ vis0 → ∀ c ∈ children L x,
          c ∈ cs.foldl
            (fun vis c => if c ∈ vis then vis else visChildren L f c vis)
            vis0) := by
  intro cs
  induction cs with
  | nil =>
    intro vis0 hcs hnd hb hfuel
    refine ⟨⟨[], by simp⟩, hnd, hb, by simp, ?_⟩
    intro x hx hnx
    exact absurd hx hnx
  | cons c cs ih =>
    intro vis0 hcs hnd hb hfuel
    simp only [List.foldl_cons]
    by_cases hc : c ∈ vis0
    · rw [if_pos hc]
      obtain ⟨⟨t, ht⟩, hnd2, hb2, hmem2, hcl2⟩ :=
        ih vis0 (fun x hx => hcs x (List.mem_cons_of_mem c hx)) hnd hb hfuel
      refine ⟨⟨t, ht⟩, hnd2, hb2, ?_, hcl2⟩
      intro c2 hc2
      rcases List.mem_cons.mp hc2 with h | h
      · subst h
        rw [ht]
        exact List.mem_append_left _ hc
      · exact hmem2 c2 h
    · rw [if_neg hc]
      obtain ⟨⟨t1, hS1⟩, hnd1, hb1, hcl1⟩ :=
        IH c vis0 hnd hb (hcs c (List.mem_cons_self c cs)) hc hfuel
      have hlen1 : vis0.length ≤ (visChildren L f c vis0).length := by
        rw [hS1]
        simp only [List.length_append]
        omega
      have hsub1 : ∀ x ∈ vis0, x ∈ visChildren L f c vis0 := by
        intro x hx
        rw [hS1]
        exact List.mem_append_left _ (List.mem_append_left _ hx)
      obtain ⟨⟨t2, hT⟩, hndT, hbT, hmemT, hclT⟩ :=
        ih (visChildren L f c vis0)
          (fun x hx => hcs x (List.mem_cons_of_mem c hx)) hnd1 hb1
          (by omega)
      have hS1T : ∀ x ∈ visChildren L f c vis0,
          x ∈ cs.foldl
            (fun vis c => if c ∈ vis then vis else visChildren L f c vis)
            (visChildren L f c vis0) := by
        intro x hx
        rw [hT]
        exact List.mem_append_left _ hx
      refine ⟨?_, hndT, hbT, ?_, ?_⟩
      · refine ⟨[c] ++ t1 ++ t2, ?_⟩
        rw [hT, hS1]
        simp
      · intro c2 hc2
        rcases List.mem_cons.mp hc2 with h | h
        · subst h
          apply hS1T
          rw [hS1]
          exact List.mem_append_left _ (List.mem_append_right _
            (List.mem_singleton_self _))
        · exact hmemT c2 h
      · intro x hx hnx c2 hc2
        by_cases hxS1 : x ∈ visChildren L f c vis0
        · exact hS1T _ (hcl1 x hxS1 hnx c2 hc2)
        · exact hclT x hx hxS1 c2 hc2

/-- Specification of `vis_children`: starting from an unvisited link, the
traversal appends the link, stays duplicate-free and in range, and every
newly visited link (the start included) has all its children visited. -/
lemma visChildren_spec (L : List CLink) :
    ∀ fuel i vis, vis.Nodup → (∀ x ∈ vis, x < L.length) → i < L.length →
      i ∉ vis → L.length ≤ fuel + vis.length →
      (∃ t, visChildren L fuel i vis = (vis ++ [i]) ++ t) ∧
      (visChildren L fuel i vis).Nodup ∧
      (∀ x ∈ visChildren L fuel i vis, x < L.length) ∧
      (∀ x ∈ visChildren L fuel i vis, x ∉ vis →
        ∀ c ∈ children L x, c ∈ visChildren L fuel i vis) := by
  intro fuel
  induction fuel with
  | zero =>
    intro i vis hnd hb hi hniv hfuel
    exfalso
    have hcons : (i :: vis).Nodup := List.nodup_cons.mpr ⟨hniv, hnd⟩
    have hball : ∀ x ∈ i :: vis, x < L.length := by
      intro x hx
      rcases List.mem_cons.mp hx with h | h
      · exact h ▸ hi
      · exact hb x h
    have hlen := nodup_bounded_length hcons hball
    simp only [List.length_cons] at hlen
    omega
  | succ f ih =>
    intro i vis hnd hb hi hniv hfuel
    have hvis1 : (vis ++ [i]).Nodup := by
      rw [List.nodup_append]
      refine ⟨hnd, List.nodup_singleton _, ?_⟩
      intro x hx hxi
      rw [List.mem_singleton] at hxi
      exact hniv (hxi ▸ hx)
    have hb1 : ∀ x ∈ vis ++ [i], x < L.length := by
      intro x hx
      rcases List.mem_append.mp hx with h | h
      · exact hb x h
      · rw [List.mem_singleton] at h
        exact h ▸ hi
    obtain ⟨⟨t, ht⟩, hndS, hbS, hmemS, hclS⟩ :=
      dfsFold_spec L f ih (children L i) (vis ++ [i])
        (fun c hc => (mem_children.mp hc).1) hvis1 hb1
        (by simp only [List.length_append, List.length_singleton]; omega)
    rw [show visChildren L (f + 1) i vis =
      (children L i).foldl
        (fun vis c => if c ∈ vis then vis else visChildren L f c vis)
        (vis ++ [i]) from rfl]
    refine ⟨⟨t, ht⟩, hndS, hbS, ?_⟩
    intro x hx hnx c hc
    by_cases hxi : x = i
    · subst hxi
      exact hmemS c hc
    · have hnx1 : x ∉ vis ++ [i] := by
        intro hmem
        rcases List.mem_append.mp hmem with h | h
        · exact hnx h
        · rw [List.mem_singleton] at h
          exact hxi h
      exact hclS x hx hnx1 c hc

end Construct

namespace Construct

lemma base_of_scan {L : List CLink} {b : Nat} (hsb : scanBase L = .ok b) :
    b < L.length ∧ cparent L b = none ∧
      (∀ i, i < L.length → cparent L i = none → i = b) := by
  simp only [scanBase] at hsb
  cases hfl : (List.range L.length).filter (fun i => cparent L i = none) with
  | nil => rw [hfl] at hsb; exact absurd hsb (by simp)
  | cons r rest =>
    cases rest with
    | nil =>
      rw [hfl] at hsb
      simp only [Except.ok.injEq] at hsb
      subst hsb
      have hbmem : r ∈ (List.range L.length).filter
          (fun i => cparent L i = none) := by
        rw [hfl]
        exact List.mem_singleton_self _
      rw [List.mem_filter, List.mem_range] at hbmem
      refine ⟨hbmem.1, of_decide_eq_true hbmem.2, ?_⟩
      intro i hi hpar
      have hmem : i ∈ (List.range L.length).filter
          (fun i => cparent L i = none) := by
        rw [List.mem_filter, List.mem_range]
        exact ⟨hi, by simp [hpar]⟩
      rw [hfl, List.mem_singleton] at hmem
      exact hmem
    | cons r2 rest2 => rw [hfl] at hsb; exact absurd hsb (by simp)

/-- Under a well-formed single-base tree, every link is reachable from the
base along child edges. -/
lemma all_reached {L : List CLink} {b : Nat} (hwf : parentLtC L = true)
    (hsb : scanBase L = .ok b) :
    ∀ i, i < L.length → Reaches L b i := by
  intro i
  induction i using Nat.strong_induction_on with
  | _ i ih =>
    intro hi
    cases hpar : cparent L i with
    | none =>
      have := (base_of_scan hsb).2.2 i hi hpar
      subst this
      exact Reaches.refl i
    | some p =>
      have hp := cparent_lt hwf hpar
      exact Reaches.step (ih p hp (lt_trans hp hi)) hpar

/-- The DFS traversal from the base visits exactly the links of the robot,
each once. -/
lemma dfs_perm (L : List CLink) {b : Nat} (hwf : parentLtC L = true)
    (hsb : scanBase L = .ok b) :
    (dfs_links L b).Nodup ∧ (∀ x, x ∈ dfs_links L b ↔ x < L.length) := by
  have hb := (base_of_scan hsb).1
  obtain ⟨⟨t, ht⟩, hnd, hbd, hcl⟩ :=
    visChildren_spec L (L.length + 1) b [] List.nodup_nil (by simp) hb
      (by simp) (by simp)
  have hdfs : dfs_links L b = visChildren L (L.length + 1) b [] := rfl
  have hbmem : b ∈ dfs_links L b := by
    rw [hdfs, ht]
    simp
  have hcomplete : ∀ x, Reaches L b x → x ∈ dfs_links L b := by
    intro x hx
    induction hx with
    | refl => exact hbmem
    | step hr hpar ihr =>
      rw [hdfs]
      refine hcl _ ihr (by simp) _ ?_
      exact mem_children.mpr ⟨cparent_isSome_lt hpar, hpar⟩
  constructor
  · rw [hdfs]; exact hnd
  · intro x
    constructor
    · intro hx
      rw [hdfs] at hx
      exact hbd x hx
    · intro hx
      exact hcomplete x (all_reached hwf hsb x hx)

/-- Counting joints by index over `range L.length` equals counting joint
links in `L`. -/
lemma range_filter_cjoint (L : List CLink) :
    ((List.range L.length).filter (fun i => cjoint L i)).length =
      (L.filter (·.isjoint)).length := by
  induction L using List.reverseRecOn with
  | nil => simp
  | append_singleton M l ih =>
    rw [List.length_append, List.length_singleton, List.range_succ,
      List.filter_append, List.filter_append, List.length_append,
      List.length_append]
    congr 1
    · rw [← ih]
      apply congrArg
      apply List.filter_congr
      intro i hi
      rw [List.mem_range] at hi
      simp only [cjoint]
      rw [List.getElem?_append_left hi]
    · have hlast : (M ++ [l])[M.length]? = some l :=
        List.getElem?_concat_length M l
      by_cases hj : l.isjoint <;>
        simp [cjoint, hlast, hj]

/-- The joint count along the DFS order equals the constructor's `n`. -/
lemma dfs_countJ (L : List CLink) {b : Nat} (hwf : parentLtC L = true)
    (hsb : scanBase L = .ok b) :
    ((dfs_links L b).filter (fun i => cjoint L i)).length = countJC L := by
  obtain ⟨hnd, hmem⟩ := dfs_perm L hwf hsb
  have hperm : (dfs_links L b).Perm (List.range L.length) :=
    (List.perm_ext_iff_of_nodup hnd (List.nodup_range _)).mpr
      (by intro x; rw [hmem x, List.mem_range])
  rw [(hperm.filter _).length_eq, range_filter_cjoint]
  rfl

end Construct

namespace Construct

/-- One step of the `visit_link` assignment: a joint link receives the
current counter and the counter increments. -/
def assignStep (L : List CLink) (st : (Nat → Option Nat) × Nat) (i : Nat) :
    (Nat → Option Nat) × Nat :=
  if cjoint L i then (Function.update st.1 i (some st.2), st.2 + 1) else st

/-- The jindex assignment of the all-None branch: fold `visit_link` over
the DFS visit order starting from counter 0. -/
def assignFold (L : List CLink) (vs : List Nat) : (Nat → Option Nat) × Nat :=
  vs.foldl (assignStep L) (fun _ => none, 0)

/-- Specification of the assignment fold from an arbitrary state: the
counter advances by the number of joints in the walked list, unvisited and
non-joint entries keep their old assignment, visited joints receive
distinct indices covering exactly `[c, c + joints)`. -/
lemma assignStep_spec (L : List CLink) :
    ∀ (w : List Nat) (g : Nat → Option Nat) (c : Nat), w.Nodup →
      (w.foldl (assignStep L) (g, c)).2 =
          c + (w.filter (fun i => cjoint L i)).length ∧
      (∀ x, x ∉ w → (w.foldl (assignStep L) (g, c)).1 x = g x) ∧
      (∀ x ∈ w, cjoint L x = false →
        (w.foldl (assignStep L) (g, c)).1 x = g x) ∧
      (∀ x ∈ w, cjoint L x = true → ∃ m,
        (w.foldl (assignStep L) (g, c)).1 x = some m ∧ c ≤ m ∧
        m < c + (w.filter (fun i => cjoint L i)).length) ∧
      (∀ m, c ≤ m → m < c + (w.filter (fun i => cjoint L i)).length →
        ∃ x, x ∈ w ∧ cjoint L x = true ∧
          (w.foldl (assignStep L) (g, c)).1 x = some m) ∧
      (∀ x ∈ w, ∀ y ∈ w, cjoint L x = true → cjoint L y = true → x ≠ y →
        (w.foldl (assignStep L) (g, c)).1 x ≠
          (w.foldl (assignStep L) (g, c)).1 y) := by
  intro w
  induction w with
  | nil =>
    intro g c _
    refine ⟨by simp, fun x _ => rfl, by simp, by simp, ?_, by simp⟩
    intro m h1 h2
    simp at h2
    omega
  | cons x w ih =>
    intro g c hnd
    rcases List.nodup_cons.mp hnd with ⟨hxw, hndw⟩
    by_cases hcx : cjoint L x = true
    · have hstep : assignStep L (g, c) x =
          (Function.update g x (some c), c + 1) := by
        simp [assignStep, hcx]
      have hcount : ((x :: w).filter (fun i => cjoint L i)).length =
          (w.filter (fun i => cjoint L i)).length + 1 := by
        simp [hcx]
      obtain ⟨ih1, ih2, ih3, ih4, ih5, ih6⟩ :=
        ih (Function.update g x (some c)) (c + 1) hndw
      have hTx : (w.foldl (assignStep L)
          (Function.update g x (some c), c + 1)).1 x = some c := by
        rw [ih2 x hxw, Function.update_same]
      simp only [List.foldl_cons, hstep, hcount]
      refine ⟨by omega, ?_, ?_, ?_, ?_, ?_⟩
      · intro y hy
        have hyx : y ≠ x := fun h => hy (h ▸ List.mem_cons_self x w)
        have hyw : y ∉ w := fun h => hy (List.mem_cons_of_mem x h)
        rw [ih2 y hyw, Function.update_noteq hyx]
      · intro y hy hcy
        rcases List.mem_cons.mp hy with h | h
        · subst h
          rw [hcx] at hcy
          exact absurd hcy (by simp)
        · have hyx : y ≠ x := fun he => hxw (he ▸ h)
          rw [ih3 y h hcy, Function.update_noteq hyx]
      · intro y hy hcy
        rcases List.mem_cons.mp hy with h | h
        · subst h
          exact ⟨c, hTx, le_refl c, by omega⟩
        · obtain ⟨m, hm, hm1, hm2⟩ := ih4 y h hcy
          exact ⟨m, hm, by omega, by omega⟩
      · intro m h1 h2
        by_cases hmc : m = c
        · subst hmc
          exact ⟨x, List.mem_cons_self x w, hcx, hTx⟩
        · obtain ⟨y, hy, hcy, hvy⟩ := ih5 m (by omega) (by omega)
          exact ⟨y, List.mem_cons_of_mem x hy, hcy, hvy⟩
      · intro y hy z hz hcy hcz hyz
        rcases List.mem_cons.mp hy with h | h
        · subst h
          rcases List.mem_cons.mp hz with h2 | h2
          · exact absurd h2.symm hyz
          · obtain ⟨m, hm, hm1, _⟩ := ih4 z h2 hcz
            rw [hTx, hm]
            intro hEq
            have := Option.some.inj hEq
            omega
        · rcases List.mem_cons.mp hz with h2 | h2
          · subst h2
            obtain ⟨m, hm, hm1, _⟩ := ih4 y h hcy
            rw [hTx, hm]
            intro hEq
            have := Option.some.inj hEq
            omega
          · exact ih6 y h z h2 hcy hcz hyz
    · have hcxf : cjoint L x = false := by
        cases h : cjoint L x
        · rfl
        · exact absurd h hcx
      have hstep : assignStep L (g, c) x = (g, c) := by
        simp [assignStep, hcxf]
      have hcount : ((x :: w).filter (fun i => cjoint L i)).length =
          (w.filter (fun i => cjoint L i)).length := by
        simp [hcxf]
      obtain ⟨ih1, ih2, ih3, ih4, ih5, ih6⟩ := ih g c hndw
      simp only [List.foldl_cons, hstep, hcount]
      refine ⟨ih1, ?_, ?_, ?_, ?_, ?_⟩
      · intro y hy
        exact ih2 y (fun h => hy (List.mem_cons_of_mem x h))
      · intro y hy hcy
        rcases List.mem_cons.mp hy with h | h
        · subst h
          exact ih2 y hxw
        · exact ih3 y h hcy
      · intro y hy hcy
        rcases List.mem_cons.mp hy with h | h
        · subst h
          rw [hcy] at hcxf
          exact absurd hcxf (by simp)
        · exact ih4 y h hcy
      · intro m h1 h2
        obtain ⟨y, hy, hcy, hvy⟩ := ih5 m h1 h2
        exact ⟨y, List.mem_cons_of_mem x hy, hcy, hvy⟩
      · intro y hy z hz hcy hcz hyz
        rcases List.mem_cons.mp hy with h | h
        · subst h
          rw [hcy] at hcxf
          exact absurd hcxf (by simp)
        · rcases List.mem_cons.mp hz with h2 | h2
          · subst h2
            rw [hcz] at hcxf
            exact absurd hcxf (by simp)
          · exact ih6 y h z h2 hcy hcz hyz

end Construct

namespace Construct

/-- The explicit jindex values of the joint links, in list order. -/
def jvals (L : List CLink) : List Nat :=
  L.filterMap (fun l => if l.isjoint then l.jidx else none)

/-- The validation loop of the all-explicit branch: each joint link's
jindex must still be in the pending set (else 'repeated or out of range'),
and is removed from it. -/
def jsetLoop : List CLink → Finset Nat → Except String (Finset Nat)
  | [], js => .ok js
  | l :: rest, js =>
    if l.isjoint then
      match l.jidx with
      | some ji =>
        if ji ∈ js then jsetLoop rest (js.erase ji)
        else .error "joint index repeated or out of range"
      | none => .error "joint index repeated or out of range"
    else jsetLoop rest js

/-- Branch-2 validation: run the loop on `set(range(n))`; any index left
unclaimed is an error. -/
def checkJindex (L : List CLink) : Except String Unit :=
  match jsetLoop L (Finset.range (countJC L)) with
  | .error e => .error e
  | .ok js => if 0 < js.card then .error "joints were not assigned" else .ok ()

lemma jsetLoop_spec :
    ∀ (rest : List CLink) (js : Finset Nat),
      (∀ l ∈ rest, l.isjoint = true → l.jidx ≠ none) →
      if (jvals rest).Nodup ∧ ∀ v ∈ jvals rest, v ∈ js
      then jsetLoop rest js = .ok (js \ (jvals rest).toFinset)
      else ∃ e, jsetLoop rest js = .error e := by
  intro rest
  induction rest with
  | nil =>
    intro js _
    rw [if_pos (by simp [jvals])]
    simp [jvals, jsetLoop]
  | cons l rest ih =>
    intro js hsome
    by_cases hj : l.isjoint = true
    · have hjix := hsome l (List.mem_cons_self l rest) hj
      cases hji : l.jidx with
      | none => exact absurd hji hjix
      | some ji =>
        have hjv : jvals (l :: rest) = ji :: jvals rest := by
          simp [jvals, hj, hji]
        have hloop : jsetLoop (l :: rest) js =
            (if ji ∈ js then jsetLoop rest (js.erase ji)
             else .error "joint index repeated or out of range") := by
          simp [jsetLoop, hj, hji]
        have hrest := fun js2 =>
          ih js2 (fun l2 hl2 => hsome l2 (List.mem_cons_of_mem l hl2))
        by_cases hmem : ji ∈ js
        · have hiff : ((jvals (l :: rest)).Nodup ∧
              ∀ v ∈ jvals (l :: rest), v ∈ js) ↔
              ((jvals rest).Nodup ∧ ∀ v ∈ jvals rest, v ∈ js.erase ji) := by
            rw [hjv]
            constructor
            · rintro ⟨hnd, hall⟩
              rcases List.nodup_cons.mp hnd with ⟨hni, hnd2⟩
              refine ⟨hnd2, ?_⟩
              intro v hv
              rw [Finset.mem_erase]
              exact ⟨fun he => hni (he ▸ hv),
                hall v (List.mem_cons_of_mem _ hv)⟩
            · rintro ⟨hnd, hall⟩
              refine ⟨List.nodup_cons.mpr ⟨?_, hnd⟩, ?_⟩
              · intro hmem2
                have := hall ji hmem2
                rw [Finset.mem_erase] at this
                exact this.1 rfl
              · intro v hv
                rcases List.mem_cons.mp hv with h | h
                · exact h ▸ hmem
                · exact Finset.mem_of_mem_erase (hall v h)
          by_cases hcond : (jvals (l :: rest)).Nodup ∧
              ∀ v ∈ jvals (l :: rest), v ∈ js
          · rw [if_pos hcond, hloop, if_pos hmem]
            have h2 := hrest (js.erase ji)
            rw [if_pos (hiff.mp hcond)] at h2
            rw [h2, hjv]
            congr 1
            rw [Finset.erase_eq, List.toFinset_cons]
            ext x
            simp only [Finset.mem_sdiff, Finset.mem_insert,
              Finset.mem_singleton]
            tauto
          · rw [if_neg hcond, hloop, if_pos hmem]
            have h2 := hrest (js.erase ji)
            rw [if_neg (fun hc => hcond (hiff.mpr hc))] at h2
            exact h2
        · have hncond : ¬((jvals (l :: rest)).Nodup ∧
              ∀ v ∈ jvals (l :: rest), v ∈ js) := by
            rintro ⟨_, hall⟩
            exact hmem (hall ji (hjv ▸ List.mem_cons_self ji (jvals rest)))
          rw [if_neg hncond, hloop, if_neg hmem]
          exact ⟨_, rfl⟩
    · have hjf : l.isjoint = false := by
        cases h : l.isjoint
        · rfl
        · exact absurd h hj
      have hjv : jvals (l :: rest) = jvals rest := by
        simp [jvals, hjf]
      have hloop : jsetLoop (l :: rest) js = jsetLoop rest js := by
        simp [jsetLoop, hjf]
      rw [hjv, hloop]
      exact ih js (fun l2 hl2 => hsome l2 (List.mem_cons_of_mem l hl2))

/-- The branch-2 validation succeeds exactly when the explicit joint
indices form the set `{0, ..., n-1}` with no repeats. -/
lemma checkJindex_iff (L : List CLink)
    (hsome : ∀ l ∈ L, l.isjoint = true → l.jidx ≠ none) :
    checkJindex L = .ok () ↔
      ((jvals L).Nodup ∧ ∀ m, m ∈ jvals L ↔ m < countJC L) := by
  have hspec := jsetLoop_spec L (Finset.range (countJC L)) hsome
  by_cases hcond : (jvals L).Nodup ∧
      ∀ v ∈ jvals L, v ∈ Finset.range (countJC L)
  · rw [if_pos hcond] at hspec
    have hgoal : checkJindex L =
        (if 0 < (Finset.range (countJC L) \ (jvals L).toFinset).card
         then Except.error "joints were not assigned" else Except.ok ()) := by
      simp only [checkJindex, hspec]
    rw [hgoal]
    have hsub : Finset.range (countJC L) \ (jvals L).toFinset = ∅ ↔
        ∀ m, m < countJC L → m ∈ jvals L := by
      rw [Finset.sdiff_eq_empty_iff_subset]
      constructor
      · intro hs m hm
        have := hs (Finset.mem_range.mpr hm)
        rwa [List.mem_toFinset] at this
      · intro hs m hm
        rw [List.mem_toFinset]
        exact hs m (Finset.mem_range.mp hm)
    constructor
    · intro hok
      have hcz : (Finset.range (countJC L) \ (jvals L).toFinset).card = 0 := by
        by_contra hnz
        rw [if_pos (by omega)] at hok
        exact absurd hok (by simp)
      refine ⟨hcond.1, ?_⟩
      intro m
      constructor
      · intro hm
        exact Finset.mem_range.mp (hcond.2 m hm)
      · intro hm
        exact (hsub.mp (Finset.card_eq_zero.mp hcz)) m hm
    · rintro ⟨hnd, hiff⟩
      have hcz : Finset.range (countJC L) \ (jvals L).toFinset = ∅ :=
        hsub.mpr (fun m hm => (hiff m).mpr hm)
      rw [hcz]
      simp
  · rw [if_neg hcond] at hspec
    obtain ⟨e, he⟩ := hspec
    have hgoal : checkJindex L = Except.error e := by
      simp only [checkJindex, he]
    rw [hgoal]
    constructor
    · intro h
      exact absurd h (by simp)
    · rintro ⟨hnd, hiff⟩
      exfalso
      exact hcond ⟨hnd, fun v hv =>
        Finset.mem_range.mpr ((hiff v).mp hv)⟩

end Construct

namespace Construct

/-- The jindex-assignment portion of `BaseERobot.__init__` (gripper-free):
scan for the base, then either assign indices in DFS order from it when no
link has an explicit jindex, validate the explicit indices when all joint
links have one, or fail on any mixture. -/
def constructJindex (L : List CLink) : Except String (Nat → Option Nat) :=
  match scanBase L with
  | .error e => .error e
  | .ok b =>
    if L.all (fun l => l.jidx.isNone) then
      .ok (assignFold L (dfs_links L b)).1
    else if (L.filter (·.isjoint)).all (fun l => l.jidx.isSome) then
      match checkJindex L with
      | .ok _ => .ok (fun i => (L[i]?).bind (·.jidx))
      | .error e => .error e
    else
      .error "all links must have a jindex, or none have a jindex"

end Construct

/-- C5: after a successful base scan on a well-formed link list: (1) if no
link has an explicit joint index, indices are assigned in depth-first
order from the base, incrementing only at joint links, so the joint links
carry exactly the indices {0, ..., n-1} with no repeats; (2) if all joint
links have explicit indices, construction succeeds exactly when those
indices form the set {0, ..., n-1} with no repeats (error otherwise); and
(3) a mixture of set and unset indices among joint links is an error. -/
theorem c5_joint_index_assignment (L : List CLink) (b : Nat)
    (hwf : Construct.parentLtC L = true)
    (hsb : Construct.scanBase L = .ok b) :
    ((∀ l ∈ L, l.jidx = none) →
      ∃ g, Construct.constructJindex L = .ok g ∧
        (∀ m, (∃ i, i < L.length ∧ Construct.cjoint L i = true ∧
          g i = some m) ↔ m < Construct.countJC L) ∧
        (∀ i j, i < L.length → j < L.length → Construct.cjoint L i = true →
          Construct.cjoint L j = true → i ≠ j → g i ≠ g j)) ∧
    ((∃ l ∈ L, l.jidx ≠ none) →
      (∀ l ∈ L, l.isjoint = true → l.jidx ≠ none) →
      ((∃ g, Construct.constructJindex L = .ok g) ↔
        ((Construct.jvals L).Nodup ∧
          ∀ m, m ∈ Construct.jvals L ↔ m < Construct.countJC L))) ∧
    ((∃ l ∈ L, l.isjoint = true ∧ l.jidx ≠ none) →
      (∃ l ∈ L, l.isjoint = true ∧ l.jidx = none) →
      ∃ e, Construct.constructJindex L = .error e) := by
  refine ⟨?_, ?_, ?_⟩
  · intro hall
    have hcond1 : L.all (fun l => l.jidx.isNone) = true := by
      rw [List.all_eq_true]
      intro l hl
      rw [hall l hl]
      rfl
    have hcJ : Construct.constructJindex L =
        .ok (Construct.assignFold L (Construct.dfs_links L b)).1 := by
      simp only [Construct.constructJindex, hsb, hcond1, if_true]
    obtain ⟨hnd, hmem⟩ := Construct.dfs_perm L hwf hsb
    obtain ⟨h1, h2, h3, h4, h5, h6⟩ :=
      Construct.assignStep_spec L (Construct.dfs_links L b)
        (fun _ => none) 0 hnd
    have hcnt := Construct.dfs_countJ L hwf hsb
    refine ⟨_, hcJ, ?_, ?_⟩
    · intro m
      constructor
      · rintro ⟨i, hi, hcj, hgi⟩
        obtain ⟨m2, hm2, hb1, hb2⟩ := h4 i ((hmem i).mpr hi) hcj
        have hgi2 : ((Construct.dfs_links L b).foldl
            (Construct.assignStep L) (fun _ => none, 0)).1 i = some m := hgi
        rw [hgi2] at hm2
        have := Option.some.inj hm2
        subst this
        rw [hcnt] at hb2
        omega
      · intro hm
        obtain ⟨x, hx, hcx, hvx⟩ := h5 m (by omega) (by rw [hcnt]; omega)
        exact ⟨x, (hmem x).mp hx, hcx, hvx⟩
    · intro i j hi hj hci hcj hij
      exact h6 i ((hmem i).mpr hi) j ((hmem j).mpr hj) hci hcj hij
  · intro hex hsome
    have hcond1 : L.all (fun l => l.jidx.isNone) = false := by
      obtain ⟨l, hl, hne⟩ := hex
      cases h : L.all (fun l => l.jidx.isNone) with
      | false => rfl
      | true =>
        exfalso
        have := (List.all_eq_true.mp h) l hl
        rw [Option.isNone_iff_eq_none] at this
        exact hne this
    have hcond2 : (L.filter (·.isjoint)).all (fun l => l.jidx.isSome) =
        true := by
      rw [List.all_eq_true]
      intro l hl
      rw [List.mem_filter] at hl
      have := hsome l hl.1 hl.2
      cases hj : l.jidx with
      | none => exact absurd hj this
      | some v => simp [hj]
    have hred : Construct.constructJindex L =
        (match Construct.checkJindex L with
         | .ok _ => .ok (fun i => (L[i]?).bind (·.jidx))
         | .error e => .error e) := by
      simp only [Construct.constructJindex, hsb, hcond1, hcond2]
      rfl
    constructor
    · rintro ⟨g, hg⟩
      rw [hred] at hg
      cases hchk : Construct.checkJindex L with
      | error e =>
        rw [hchk] at hg
        exact absurd hg (by simp)
      | ok u =>
        have hok : Construct.checkJindex L = .ok () := by rw [hchk]
        exact (Construct.checkJindex_iff L hsome).mp hok
    · intro hR
      have hok := (Construct.checkJindex_iff L hsome).mpr hR
      rw [hred, hok]
      exact ⟨_, rfl⟩
  · intro hex1 hex2
    have hcond1 : L.all (fun l => l.jidx.isNone) = false := by
      obtain ⟨l, hl, _, hne⟩ := hex1
      cases h : L.all (fun l => l.jidx.isNone) with
      | false => rfl
      | true =>
        exfalso
        have := (List.all_eq_true.mp h) l hl
        rw [Option.isNone_iff_eq_none] at this
        exact hne this
    have hcond2 : (L.filter (·.isjoint)).all (fun l => l.jidx.isSome) =
        false := by
      obtain ⟨l, hl, hjl, hnone⟩ := hex2
      cases h : (L.filter (·.isjoint)).all (fun l => l.jidx.isSome) with
      | false => rfl
      | true =>
        exfalso
        have hlmem : l ∈ L.filter (·.isjoint) := by
          rw [List.mem_filter]
          exact ⟨hl, hjl⟩
        have := (List.all_eq_true.mp h) l hlmem
        rw [hnone] at this
        exact absurd this (by simp)
    refine ⟨"all links must have a jindex, or none have a jindex", ?_⟩
    simp only [Construct.constructJindex, hsb, hcond1, hcond2]
    rfl

/-- Two-joint chain with no explicit joint indices. -/
def clA : List CLink :=
  [{ parent := none, isjoint := true },
   { parent := some 0, isjoint := true }]

/-- Two-joint chain with explicit joint indices 0 and 1. -/
def clB : List CLink :=
  [{ parent := none, isjoint := true, jidx := some 0 },
   { parent := some 0, isjoint := true, jidx := some 1 }]

/-- Two-joint chain with a mixture of a set and an unset joint index. -/
def clC : List CLink :=
  [{ parent := none, isjoint := true, jidx := some 0 },
   { parent := some 0, isjoint := true, jidx := none }]

/-- C5 witness: the three branches instantiated on concrete link lists. -/
theorem c5_witness :
    (Construct.parentLtC clA = true ∧ Construct.scanBase clA = .ok 0 ∧
      (∀ l ∈ clA, l.jidx = none) ∧
      (∃ g, Construct.constructJindex clA = .ok g ∧
        (∀ m, (∃ i, i < clA.length ∧ Construct.cjoint clA i = true ∧
          g i = some m) ↔ m < Construct.countJC clA) ∧
        (∀ i j, i < clA.length → j < clA.length →
          Construct.cjoint clA i = true → Construct.cjoint clA j = true →
          i ≠ j → g i ≠ g j))) ∧
    (Construct.parentLtC clB = true ∧ Construct.scanBase clB = .ok 0 ∧
      (∃ l ∈ clB, l.jidx ≠ none) ∧
      (∀ l ∈ clB, l.isjoint = true → l.jidx ≠ none) ∧
      ((∃ g, Construct.constructJindex clB = .ok g) ↔
        ((Construct.jvals clB).Nodup ∧
          ∀ m, m ∈ Construct.jvals clB ↔ m < Construct.countJC clB))) ∧
    (Construct.parentLtC clC = true ∧ Construct.scanBase clC = .ok 0 ∧
      (∃ l ∈ clC, l.isjoint = true ∧ l.jidx ≠ none) ∧
      (∃ l ∈ clC, l.isjoint = true ∧ l.jidx = none) ∧
      ∃ e, Construct.constructJindex clC = .error e) :=
  ⟨⟨by decide, by rfl, by decide,
    (c5_joint_index_assignment clA 0 (by decide) (by rfl)).1 (by decide)⟩,
   ⟨by decide, by rfl, by decide, by decide,
    (c5_joint_index_assignment clB 0 (by decide) (by rfl)).2.1 (by decide)
      (by decide)⟩,
   ⟨by decide, by rfl, by decide, by decide,
    (c5_joint_index_assignment clC 0 (by decide) (by rfl)).2.2 (by decide)
      (by decide)⟩⟩
